import Mathlib

/-!
Verification development for the meeting-insights backend
(transcript ingestion, LLM task extraction, dependency-graph sanitization,
cycle detection, job queue, and the HTTP route handlers).

The TypeScript sources are shallowly embedded as executable Lean
definitions; the theorems at the end of the file settle the behavioural
claims about the pipeline.
-/

namespace MeetingInsights

/-! ## Data model

`TaskOutput` mirrors the `TaskOutput` interface of `llmService.ts`;
`ValidatedTask` mirrors `ValidatedTask` of `validationService.ts`
(`status` there is typed `'ready' | 'blocked' | 'error'`, and stored tasks
additionally use `'completed'`; we use one inductive for all of them). -/

inductive Priority where
  | high
  | medium
  | low
deriving DecidableEq, Repr

inductive TaskStatus where
  | ready
  | blocked
  | completed
  | error
deriving DecidableEq, Repr

structure TaskOutput where
  id : String
  description : String
  priority : Priority
  dependencies : List String
deriving DecidableEq, Repr

structure ValidatedTask extends TaskOutput where
  status : TaskStatus
  errorMessage : Option String
  sanitizedDependencies : Option (List String)
deriving DecidableEq, Repr

/-! ## ValidationService (`validationService.ts`) -/

/-- Embedding of `ValidationService.validateAndSanitizeTasks`: builds the set
of task ids present in the batch, keeps only dependencies that are members of
that set, records dropped ids in `sanitizedDependencies`, and sets every
status to `ready`. -/
def validateAndSanitizeTasks (tasks : List TaskOutput) : List ValidatedTask :=
  let validTaskIds := tasks.map (·.id)
  tasks.map (fun task =>
    let validDependencies := task.dependencies.filter (fun depId => depId ∈ validTaskIds)
    let invalidDependencies := task.dependencies.filter (fun depId => depId ∉ validTaskIds)
    { task with
      dependencies := validDependencies
      status := TaskStatus.ready
      errorMessage := none
      sanitizedDependencies :=
        if invalidDependencies.length > 0 then some invalidDependencies else none })

/-- Embedding of `ValidationService.calculateTaskStatuses`: tasks in `error`
state are unchanged, otherwise the status becomes `blocked` when some
dependency is not in the completed set, else `ready`. -/
def calculateTaskStatuses (tasks : List ValidatedTask) (completedTaskIds : List String) :
    List ValidatedTask :=
  tasks.map (fun task =>
    if task.status = TaskStatus.error then task
    else
      let hasUnmetDependencies := task.dependencies.any (fun depId => depId ∉ completedTaskIds)
      { task with status := if hasUnmetDependencies then TaskStatus.blocked else TaskStatus.ready })

/-! ## Dependency graph (`cycleDetectionService.ts`)

A JS `Map<string, string[]>` is embedded as an association list that keeps
insertion order; `mapSet` has the `Map.set` semantics (replace in place,
else append), `graphGet` the `Map.get` semantics with `|| []` at use sites. -/

abbrev Graph := List (String × List String)

def mapSet : Graph → String → List String → Graph
  | [], k, v => [(k, v)]
  | (k', v') :: g, k, v => if k' = k then (k, v) :: g else (k', v') :: mapSet g k v

def graphGet : Graph → String → List String
  | [], _ => []
  | (k, v) :: g, n => if n = k then v else graphGet g n

def graphKeys (g : Graph) : List String := g.map (·.1)

/-- Embedding of `CycleDetectionService.buildGraph`. -/
def buildGraph (tasks : List ValidatedTask) : Graph :=
  tasks.foldl (fun g task => mapSet g task.id task.dependencies) []

/-! JS `Set<string>` operations, embedded on duplicate-free lists. -/

def setAdd (s : List String) (x : String) : List String :=
  if x ∈ s then s else x :: s

def setDel (s : List String) (x : String) : List String :=
  s.filter (fun y => y ≠ x)

/-! ### The directed-cycle property

`Walk g u p v` says `p` is the list of successive vertices of an edge walk
from `u` to `v` (excluding `u`); a directed cycle is a nonempty walk from a
vertex back to itself. -/

def Edge (g : Graph) (u v : String) : Prop := v ∈ graphGet g u

def Walk (g : Graph) : String → List String → String → Prop
  | u, [], w => u = w
  | u, v :: p, w => Edge g u v ∧ Walk g v p w

def HasCycle (g : Graph) : Prop := ∃ u p, p ≠ [] ∧ Walk g u p u

/-- Nonempty walk from `u` to `v`. -/
def NW (g : Graph) (u v : String) : Prop := ∃ p, p ≠ [] ∧ Walk g u p v

instance (g : Graph) (u v : String) : Decidable (Edge g u v) :=
  inferInstanceAs (Decidable (v ∈ graphGet g u))

def walkDec (g : Graph) : (u : String) → (p : List String) → (w : String) →
    Decidable (Walk g u p w)
  | u, [], w => decidable_of_iff (u = w) Iff.rfl
  | u, v :: p, w =>
    haveI : Decidable (Walk g v p w) := walkDec g v p w
    decidable_of_iff (Edge g u v ∧ Walk g v p w) Iff.rfl

instance (g : Graph) (u : String) (p : List String) (w : String) :
    Decidable (Walk g u p w) := walkDec g u p w

/-! ### DFS cycle detection

Embedding of `CycleDetectionService.dfs` / `detectCycles`.  The mutable
`visited` / `recursionStack` / `cycleNodes` sets are threaded as explicit
state; recursion is fuelled (mirroring the unbounded JS recursion), and we
prove below that the fuel chosen by `detectCycles` is always sufficient. -/

structure CDState where
  visited : List String
  stack : List String
  cyc : List String
deriving Repr, DecidableEq

/-- The `for (const neighbor of neighbors)` loop of `dfs`, parameterized by
the recursive `this.dfs` call at the remaining fuel (this keeps both
recursions structural, so the functions compute by kernel reduction). -/
def dfsNeighborsF (g : Graph) (dfsf : String → CDState → Option (Bool × CDState)) :
    String → List String → CDState → Option (Bool × CDState)
  | node, [], st => some (false, { st with stack := setDel st.stack node })
  | node, neighbor :: rest, st =>
    if neighbor ∈ st.visited then
      if neighbor ∈ st.stack then
        some (true, { st with cyc := setAdd (setAdd st.cyc node) neighbor })
      else
        dfsNeighborsF g dfsf node rest st
    else
      match dfsf neighbor st with
      | none => none
      | some (true, st') => some (true, { st' with cyc := setAdd st'.cyc node })
      | some (false, st') => dfsNeighborsF g dfsf node rest st'

def dfs (g : Graph) : Nat → String → CDState → Option (Bool × CDState)
  | 0, _, _ => none
  | f + 1, node, st =>
    let st1 : CDState :=
      { st with visited := setAdd st.visited node, stack := setAdd st.stack node }
    dfsNeighborsF g (dfs g f) node (graphGet g node) st1

def dfsNeighbors (g : Graph) (f : Nat) : String → List String → CDState →
    Option (Bool × CDState) :=
  dfsNeighborsF g (dfs g f)

/-- Fuel used by `detectCycles` and `topologicalSort`; strictly larger than
the number of distinct vertices ever passed to `dfs`. -/
def graphFuel (g : Graph) : Nat :=
  g.length + (g.map (fun p => p.2.length)).sum + 1

/-- The outer `for (const taskId of graph.keys())` loop of `detectCycles`,
which ignores the boolean returned by each `dfs` root call. -/
def detectCyclesRun (g : Graph) : List String → CDState → Option CDState
  | [], st => some st
  | k :: ks, st =>
    if k ∈ st.visited then detectCyclesRun g ks st
    else
      match dfs g (graphFuel g) k st with
      | none => none
      | some (_, st') => detectCyclesRun g ks st'

structure CycleDetectionResult where
  hasCycles : Bool
  cycleNodes : List String
  tasks : List ValidatedTask
deriving Repr, DecidableEq

def cycleErrorMessage : String := "This task is part of a circular dependency"

/-- Embedding of `CycleDetectionService.detectCycles` modulo fuel (the
`Option` is `none` only on fuel exhaustion, which `detectCycles_total`
rules out). -/
def detectCyclesO (tasks : List ValidatedTask) : Option CycleDetectionResult :=
  let g := buildGraph tasks
  match detectCyclesRun g (graphKeys g) ⟨[], [], []⟩ with
  | none => none
  | some st =>
    some
      { hasCycles := !st.cyc.isEmpty
        cycleNodes := st.cyc
        tasks := tasks.map (fun task =>
          if task.id ∈ st.cyc then
            { task with status := TaskStatus.error, errorMessage := some cycleErrorMessage }
          else task) }

def detectCycles (tasks : List ValidatedTask) : CycleDetectionResult :=
  (detectCyclesO tasks).getD ⟨false, [], tasks⟩

/-! ### Topological sort

Embedding of `CycleDetectionService.topologicalSort` and its inner
`dfsSort` helper; `result.push` is post-order append, the final answer is
`result.reverse()`, and `null` (no order exists) is the inner `none`. -/

structure TSState where
  visited : List String
  stack : List String
  result : List String
deriving Repr, DecidableEq

/-- The neighbor loop of `dfsSort`, parameterized like `dfsNeighborsF`. -/
def dfsSortNeighborsF (g : Graph) (dfsf : String → TSState → Option (Bool × TSState)) :
    String → List String → TSState → Option (Bool × TSState)
  | node, [], st =>
    some (true, { st with stack := setDel st.stack node, result := st.result ++ [node] })
  | node, neighbor :: rest, st =>
    if neighbor ∈ st.visited then
      if neighbor ∈ st.stack then
        some (false, st)
      else
        dfsSortNeighborsF g dfsf node rest st
    else
      match dfsf neighbor st with
      | none => none
      | some (false, st') => some (false, st')
      | some (true, st') => dfsSortNeighborsF g dfsf node rest st'

def dfsSort (g : Graph) : Nat → String → TSState → Option (Bool × TSState)
  | 0, _, _ => none
  | f + 1, node, st =>
    let st1 : TSState :=
      { st with visited := setAdd st.visited node, stack := setAdd st.stack node }
    dfsSortNeighborsF g (dfsSort g f) node (graphGet g node) st1

def dfsSortNeighbors (g : Graph) (f : Nat) : String → List String → TSState →
    Option (Bool × TSState) :=
  dfsSortNeighborsF g (dfsSort g f)

def topologicalSortRun (g : Graph) : List String → TSState → Option (Option TSState)
  | [], st => some (some st)
  | k :: ks, st =>
    if k ∈ st.visited then topologicalSortRun g ks st
    else
      match dfsSort g (graphFuel g) k st with
      | none => none
      | some (false, _) => some none
      | some (true, st') => topologicalSortRun g ks st'

def topologicalSortO (tasks : List ValidatedTask) : Option (Option (List String)) :=
  let g := buildGraph tasks
  (topologicalSortRun g (graphKeys g) ⟨[], [], []⟩).map (fun r =>
    r.map (fun st => st.result.reverse))

def topologicalSort (tasks : List ValidatedTask) : Option (List String) :=
  (topologicalSortO tasks).getD none

/-- In the list `L`, the first occurrence of `u` comes strictly before some
occurrence of `v`. -/
def beforeInB : List String → String → String → Bool
  | [], _, _ => false
  | x :: rest, u, v => if x = u then decide (v ∈ rest) else beforeInB rest u v

/-- A list ordering is dependency-consistent in the reversed sense: every
element's graph successors occur strictly later in the list. -/
def revGood (g : Graph) : List String → Prop
  | [] => True
  | x :: rest => (∀ nb ∈ graphGet g x, nb ∈ rest) ∧ revGood g rest

/-! ## Helper lemmas about the embedded JS sets and the graph -/

theorem mem_setAdd {s : List String} {x y : String} :
    y ∈ setAdd s x ↔ y = x ∨ y ∈ s := by
  unfold setAdd
  split
  · rename_i h
    constructor
    · exact fun hy => Or.inr hy
    · rintro (rfl | hy)
      · exact h
      · exact hy
  · exact List.mem_cons

theorem subset_setAdd {s : List String} {x : String} : s ⊆ setAdd s x := by
  intro y hy; exact mem_setAdd.mpr (Or.inr hy)

theorem self_mem_setAdd {s : List String} {x : String} : x ∈ setAdd s x :=
  mem_setAdd.mpr (Or.inl rfl)

theorem mem_setDel {s : List String} {x y : String} :
    y ∈ setDel s x ↔ y ∈ s ∧ y ≠ x := by
  unfold setDel; simp

theorem not_mem_setDel_self {s : List String} {x : String} : x ∉ setDel s x := by
  intro h; exact ((mem_setDel.mp h).2) rfl

theorem setDel_subset {s : List String} {x : String} : setDel s x ⊆ s := by
  intro y hy; exact (mem_setDel.mp hy).1

theorem setDel_setAdd {s : List String} {x : String} (h : x ∉ s) :
    setDel (setAdd s x) x = s := by
  unfold setAdd setDel
  rw [if_neg h]
  rw [List.filter_cons_of_neg (by simp)]
  apply List.filter_eq_self.mpr
  intro y hy
  simp only [ne_eq, decide_eq_true_eq]
  exact fun hyx => h (hyx ▸ hy)

/-- All vertex names occurring in the graph: the keys plus every name
occurring in an adjacency list. -/
def nodesOf (g : Graph) : List String := graphKeys g ++ (g.map (·.2)).flatten

theorem mem_nodesOf_cons {k : String} {v : List String} {g : Graph} {x : String} :
    x ∈ nodesOf ((k, v) :: g) ↔ x = k ∨ x ∈ v ∨ x ∈ nodesOf g := by
  simp only [nodesOf, graphKeys, List.map_cons, List.flatten_cons, List.mem_append,
    List.mem_cons]
  tauto

theorem mem_nodesOf_of_mem_graphGet {g : Graph} {n x : String}
    (h : x ∈ graphGet g n) : x ∈ nodesOf g := by
  induction g with
  | nil => simp [graphGet] at h
  | cons p g ih =>
    obtain ⟨k, v⟩ := p
    simp only [graphGet] at h
    by_cases hk : n = k
    · rw [if_pos hk] at h
      exact mem_nodesOf_cons.mpr (Or.inr (Or.inl h))
    · rw [if_neg hk] at h
      exact mem_nodesOf_cons.mpr (Or.inr (Or.inr (ih h)))

theorem keys_subset_nodesOf {g : Graph} : graphKeys g ⊆ nodesOf g := by
  intro x hx; exact List.mem_append.mpr (Or.inl hx)

theorem mem_keys_of_graphGet_ne {g : Graph} {n : String} (h : graphGet g n ≠ []) :
    n ∈ graphKeys g := by
  induction g with
  | nil => simp [graphGet] at h
  | cons p g ih =>
    obtain ⟨k, v⟩ := p
    simp only [graphGet] at h
    by_cases hk : n = k
    · simp [graphKeys, hk]
    · rw [if_neg hk] at h
      exact List.mem_cons.mpr (Or.inr (ih h))

/-! ## Walks and cycles: basic lemmas -/

theorem Walk.append {g : Graph} {a b c : String} {p q : List String}
    (h1 : Walk g a p b) (h2 : Walk g b q c) : Walk g a (p ++ q) c := by
  induction p generalizing a with
  | nil =>
    have : a = b := h1
    rw [List.nil_append, this]
    exact h2
  | cons v p ih =>
    obtain ⟨he, hw⟩ := h1
    exact ⟨he, ih hw⟩

theorem NW.of_edge {g : Graph} {u v : String} (h : Edge g u v) : NW g u v :=
  ⟨[v], by simp, h, rfl⟩

theorem NW.step {g : Graph} {s node nb : String} (h : NW g s node)
    (he : Edge g node nb) : NW g s nb := by
  obtain ⟨p, hp, hw⟩ := h
  exact ⟨p ++ [nb], by simp, Walk.append hw ⟨he, rfl⟩⟩

/-- A nonempty walk from `nb` back to `node` together with the edge
`node → nb` closes a directed cycle. -/
theorem hasCycle_of_back {g : Graph} {node nb : String} (h : NW g nb node)
    (he : Edge g node nb) : HasCycle g := by
  obtain ⟨p, hp, hw⟩ := h
  exact ⟨nb, p ++ [nb], by simp, Walk.append hw ⟨he, rfl⟩⟩

theorem hasCycle_of_self_edge {g : Graph} {node : String} (he : Edge g node node) :
    HasCycle g := ⟨node, [node], by simp, he, rfl⟩

/-! ## Unfolding equations for the fuelled DFS functions -/

theorem dfs_zero (g : Graph) (node : String) (st : CDState) : dfs g 0 node st = none := rfl

theorem dfs_succ (g : Graph) (f : Nat) (node : String) (st : CDState) :
    dfs g (f + 1) node st =
      dfsNeighbors g f node (graphGet g node)
        { st with visited := setAdd st.visited node, stack := setAdd st.stack node } := rfl

theorem dfsNeighbors_nil (g : Graph) (f : Nat) (node : String) (st : CDState) :
    dfsNeighbors g f node [] st = some (false, { st with stack := setDel st.stack node }) := rfl

theorem dfsNeighbors_cons (g : Graph) (f : Nat) (node nb : String) (rest : List String)
    (st : CDState) :
    dfsNeighbors g f node (nb :: rest) st =
      if nb ∈ st.visited then
        if nb ∈ st.stack then
          some (true, { st with cyc := setAdd (setAdd st.cyc node) nb })
        else dfsNeighbors g f node rest st
      else
        match dfs g f nb st with
        | none => none
        | some (true, st') => some (true, { st' with cyc := setAdd st'.cyc node })
        | some (false, st') => dfsNeighbors g f node rest st' := rfl

theorem dfsSort_zero (g : Graph) (node : String) (st : TSState) :
    dfsSort g 0 node st = none := rfl

theorem dfsSort_succ (g : Graph) (f : Nat) (node : String) (st : TSState) :
    dfsSort g (f + 1) node st =
      dfsSortNeighbors g f node (graphGet g node)
        { st with visited := setAdd st.visited node, stack := setAdd st.stack node } := rfl

theorem dfsSortNeighbors_nil (g : Graph) (f : Nat) (node : String) (st : TSState) :
    dfsSortNeighbors g f node [] st =
      some (true, { st with stack := setDel st.stack node, result := st.result ++ [node] }) := rfl

theorem dfsSortNeighbors_cons (g : Graph) (f : Nat) (node nb : String) (rest : List String)
    (st : TSState) :
    dfsSortNeighbors g f node (nb :: rest) st =
      if nb ∈ st.visited then
        if nb ∈ st.stack then some (false, st)
        else dfsSortNeighbors g f node rest st
      else
        match dfsSort g f nb st with
        | none => none
        | some (false, st') => some (false, st')
        | some (true, st') => dfsSortNeighbors g f node rest st' := rfl

/-! ## Monotonicity of the DFS state -/

theorem dfsNeighbors_mono_of (g : Graph) (f : Nat)
    (hdfs : ∀ node st b st', dfs g f node st = some (b, st') →
      st.visited ⊆ st'.visited ∧ st.cyc ⊆ st'.cyc) :
    ∀ l node st b st', dfsNeighbors g f node l st = some (b, st') →
      st.visited ⊆ st'.visited ∧ st.cyc ⊆ st'.cyc := by
  intro l
  induction l with
  | nil =>
    intro node st b st' h
    rw [dfsNeighbors_nil] at h
    simp only [Option.some.injEq, Prod.mk.injEq] at h
    rw [← h.2]
    exact ⟨fun x hx => hx, fun x hx => hx⟩
  | cons nb rest ih =>
    intro node st b st' h
    rw [dfsNeighbors_cons] at h
    split at h
    · split at h
      · simp only [Option.some.injEq, Prod.mk.injEq] at h
        rw [← h.2]
        exact ⟨fun x hx => hx, fun x hx => subset_setAdd (subset_setAdd hx)⟩
      · exact ih node st b st' h
    · split at h
      · cases h
      · rename_i st1 heq
        simp only [Option.some.injEq, Prod.mk.injEq] at h
        obtain ⟨hv, hc⟩ := hdfs _ _ _ _ heq
        rw [← h.2]
        exact ⟨hv, fun x hx => subset_setAdd (hc hx)⟩
      · rename_i st1 heq
        obtain ⟨hv, hc⟩ := hdfs _ _ _ _ heq
        obtain ⟨hv', hc'⟩ := ih node st1 b st' h
        exact ⟨fun x hx => hv' (hv hx), fun x hx => hc' (hc hx)⟩

theorem dfs_mono (g : Graph) :
    ∀ f node st b st', dfs g f node st = some (b, st') →
      st.visited ⊆ st'.visited ∧ st.cyc ⊆ st'.cyc := by
  intro f
  induction f with
  | zero => intro node st b st' h; rw [dfs_zero] at h; cases h
  | succ f ih =>
    intro node st b st' h
    rw [dfs_succ] at h
    obtain ⟨hv, hc⟩ := dfsNeighbors_mono_of g f ih _ _ _ _ _ h
    exact ⟨fun x hx => hv (subset_setAdd hx), hc⟩

theorem dfsNeighbors_mono (g : Graph) (f : Nat) :
    ∀ l node st b st', dfsNeighbors g f node l st = some (b, st') →
      st.visited ⊆ st'.visited ∧ st.cyc ⊆ st'.cyc :=
  dfsNeighbors_mono_of g f (dfs_mono g f)

/-! ## Fuel sufficiency for `dfs` -/

def unvisited (g : Graph) (vis : List String) : Finset String :=
  (nodesOf g).toFinset \ vis.toFinset

theorem unvisited_anti {g : Graph} {vis vis' : List String} (h : vis ⊆ vis') :
    unvisited g vis' ⊆ unvisited g vis := by
  intro x hx
  rw [unvisited, Finset.mem_sdiff] at hx ⊢
  exact ⟨hx.1, fun hc => hx.2 (List.mem_toFinset.mpr (h (List.mem_toFinset.mp hc)))⟩

theorem unvisited_card_lt {g : Graph} {vis : List String} {node : String}
    (hn : node ∈ nodesOf g) (hv : node ∉ vis) :
    (unvisited g (setAdd vis node)).card < (unvisited g vis).card := by
  have hmem : node ∈ unvisited g vis := by
    rw [unvisited, Finset.mem_sdiff]
    exact ⟨List.mem_toFinset.mpr hn, fun hc => hv (List.mem_toFinset.mp hc)⟩
  have hsub : unvisited g (setAdd vis node) ⊆ (unvisited g vis).erase node := by
    intro x hx
    rw [unvisited, Finset.mem_sdiff] at hx
    rw [Finset.mem_erase, unvisited, Finset.mem_sdiff]
    constructor
    · intro hxe
      exact hx.2 (List.mem_toFinset.mpr (by rw [hxe]; exact self_mem_setAdd))
    · exact ⟨hx.1, fun hc => hx.2 (List.mem_toFinset.mpr (subset_setAdd (List.mem_toFinset.mp hc)))⟩
  calc (unvisited g (setAdd vis node)).card
      ≤ ((unvisited g vis).erase node).card := Finset.card_le_card hsub
    _ < (unvisited g vis).card := Finset.card_erase_lt_of_mem hmem

theorem unvisited_card_le_fuel (g : Graph) (vis : List String) :
    (unvisited g vis).card ≤ graphFuel g := by
  calc (unvisited g vis).card
      ≤ (nodesOf g).toFinset.card := Finset.card_le_card (Finset.sdiff_subset)
    _ ≤ (nodesOf g).length := List.toFinset_card_le _
    _ ≤ graphFuel g := by
        simp only [nodesOf, graphKeys, graphFuel, List.length_append, List.length_map]
        have : ((g.map (·.2)).flatten).length = (g.map (fun p => p.2.length)).sum := by
          rw [List.length_flatten, List.map_map]
          rfl
        omega

theorem dfsNeighbors_some_of (g : Graph) (f : Nat)
    (hdfs : ∀ node st, node ∈ nodesOf g → node ∉ st.visited →
      (unvisited g st.visited).card ≤ f → (dfs g f node st).isSome) :
    ∀ l node st, (∀ nb ∈ l, nb ∈ nodesOf g) →
      (unvisited g st.visited).card ≤ f → (dfsNeighbors g f node l st).isSome := by
  intro l
  induction l with
  | nil => intro node st _ _; rw [dfsNeighbors_nil]; rfl
  | cons nb rest ih =>
    intro node st hl hc
    rw [dfsNeighbors_cons]
    split
    · split
      · rfl
      · exact ih node st (fun x hx => hl x (List.mem_cons.mpr (Or.inr hx))) hc
    · rename_i hnv
      have hsome := hdfs nb st (hl nb (List.mem_cons.mpr (Or.inl rfl))) hnv hc
      obtain ⟨⟨b, st1⟩, heq⟩ := Option.isSome_iff_exists.mp hsome
      rw [heq]
      cases b
      · apply ih node st1 (fun x hx => hl x (List.mem_cons.mpr (Or.inr hx)))
        calc (unvisited g st1.visited).card
            ≤ (unvisited g st.visited).card :=
              Finset.card_le_card (unvisited_anti (dfs_mono g f _ _ _ _ heq).1)
          _ ≤ f := hc
      · rfl

theorem dfs_some (g : Graph) :
    ∀ f node st, node ∈ nodesOf g → node ∉ st.visited →
      (unvisited g st.visited).card ≤ f → (dfs g f node st).isSome := by
  intro f
  induction f with
  | zero =>
    intro node st hn hv hc
    exfalso
    have hmem : node ∈ unvisited g st.visited := by
      rw [unvisited, Finset.mem_sdiff]
      exact ⟨List.mem_toFinset.mpr hn, fun hx => hv (List.mem_toFinset.mp hx)⟩
    have := Finset.card_pos.mpr ⟨node, hmem⟩
    omega
  | succ f ih =>
    intro node st hn hv hc
    rw [dfs_succ]
    apply dfsNeighbors_some_of g f ih
    · intro nb hnb; exact mem_nodesOf_of_mem_graphGet hnb
    · show (unvisited g (setAdd st.visited node)).card ≤ f
      have := unvisited_card_lt hn hv
      omega

theorem detectCyclesRun_isSome (g : Graph) :
    ∀ ks st, (∀ k ∈ ks, k ∈ nodesOf g) → (detectCyclesRun g ks st).isSome := by
  intro ks
  induction ks with
  | nil => intro st _; rw [detectCyclesRun]; rfl
  | cons k ks ih =>
    intro st hks
    rw [detectCyclesRun]
    split
    · exact ih st (fun x hx => hks x (List.mem_cons.mpr (Or.inr hx)))
    · rename_i hkv
      have hsome := dfs_some g (graphFuel g) k st (hks k (List.mem_cons.mpr (Or.inl rfl))) hkv
        (unvisited_card_le_fuel g st.visited)
      obtain ⟨⟨b, st1⟩, heq⟩ := Option.isSome_iff_exists.mp hsome
      rw [heq]
      exact ih st1 (fun x hx => hks x (List.mem_cons.mpr (Or.inr hx)))

theorem detectCyclesO_isSome (tasks : List ValidatedTask) : (detectCyclesO tasks).isSome := by
  rw [detectCyclesO]
  have := detectCyclesRun_isSome (buildGraph tasks) (graphKeys (buildGraph tasks)) ⟨[], [], []⟩
    (fun k hk => keys_subset_nodesOf hk)
  obtain ⟨st, heq⟩ := Option.isSome_iff_exists.mp this
  simp only [heq]
  rfl

/-! ## Soundness: a `true` answer of `dfs` certifies a directed cycle -/

theorem dfsNeighbors_true_cyc (g : Graph) (f : Nat) :
    ∀ l node st st', dfsNeighbors g f node l st = some (true, st') → node ∈ st'.cyc := by
  intro l
  induction l with
  | nil =>
    intro node st st' h
    rw [dfsNeighbors_nil] at h
    simp at h
  | cons nb rest ih =>
    intro node st st' h
    rw [dfsNeighbors_cons] at h
    split at h
    · split at h
      · simp only [Option.some.injEq, Prod.mk.injEq, true_and] at h
        rw [← h]
        exact subset_setAdd self_mem_setAdd
      · exact ih node st st' h
    · split at h
      · cases h
      · rename_i st1 heq
        simp only [Option.some.injEq, Prod.mk.injEq, true_and] at h
        rw [← h]
        exact self_mem_setAdd
      · rename_i st1 heq
        exact ih node st1 st' h

theorem dfs_true_cyc (g : Graph) (f : Nat) (node : String) (st st' : CDState)
    (h : dfs g f node st = some (true, st')) : node ∈ st'.cyc := by
  cases f with
  | zero => rw [dfs_zero] at h; cases h
  | succ f =>
    rw [dfs_succ] at h
    exact dfsNeighbors_true_cyc g f _ node _ st' h

theorem dfsNeighbors_sound_of (g : Graph) (f : Nat)
    (hdfs : ∀ node st b st', dfs g f node st = some (b, st') →
      (∀ s ∈ st.stack, NW g s node) → st.stack ⊆ st.visited → node ∉ st.visited →
      (b = true → HasCycle g) ∧
      (b = false → st'.stack = st.stack ∧ st'.cyc = st.cyc ∧ st.visited ⊆ st'.visited)) :
    ∀ l node st b st', dfsNeighbors g f node l st = some (b, st') →
      (∀ nb ∈ l, Edge g node nb) →
      (∀ s ∈ st.stack, s = node ∨ NW g s node) →
      node ∈ st.stack → st.stack ⊆ st.visited →
      (b = true → HasCycle g) ∧
      (b = false → st'.stack = setDel st.stack node ∧ st'.cyc = st.cyc ∧
        st.visited ⊆ st'.visited) := by
  intro l
  induction l with
  | nil =>
    intro node st b st' h _ _ _ _
    rw [dfsNeighbors_nil] at h
    injection h with h'
    injection h' with hb hst
    subst hst
    subst hb
    exact ⟨fun hb => Bool.noConfusion hb, fun _ => ⟨rfl, rfl, fun x hx => hx⟩⟩
  | cons nb rest ih =>
    intro node st b st' h hl hstk hnode hsv
    rw [dfsNeighbors_cons] at h
    split at h
    · rename_i hvis
      split at h
      · rename_i hstk'
        injection h with h'
        injection h' with hb hst
        subst hst
        subst hb
        refine ⟨fun _ => ?_, fun hb => Bool.noConfusion hb⟩
        have hedge : Edge g node nb := hl nb (List.mem_cons.mpr (Or.inl rfl))
        rcases hstk nb hstk' with rfl | hnw
        · exact hasCycle_of_self_edge hedge
        · exact hasCycle_of_back hnw hedge
      · exact ih node st b st' h (fun x hx => hl x (List.mem_cons.mpr (Or.inr hx))) hstk
          hnode hsv
    · rename_i hvis
      split at h
      · cases h
      · rename_i st1 heq
        injection h with h'
        injection h' with hb hst
        subst hst
        subst hb
        refine ⟨fun _ => ?_, fun hb => Bool.noConfusion hb⟩
        have hedge : Edge g node nb := hl nb (List.mem_cons.mpr (Or.inl rfl))
        have hcyc := (hdfs nb st true st1 heq ?_ hsv hvis).1 rfl
        · exact hcyc
        · intro s hs
          rcases hstk s hs with rfl | hnw
          · exact NW.of_edge hedge
          · exact NW.step hnw hedge
      · rename_i st1 heq
        have hedge : Edge g node nb := hl nb (List.mem_cons.mpr (Or.inl rfl))
        have hfalse := (hdfs nb st false st1 heq ?_ hsv hvis).2 rfl
        · obtain ⟨hstack1, hcyc1, hvis1⟩ := hfalse
          have hrec := ih node st1 b st' h (fun x hx => hl x (List.mem_cons.mpr (Or.inr hx)))
            (by rw [hstack1]; exact hstk) (by rw [hstack1]; exact hnode)
            (by rw [hstack1]; exact fun x hx => hvis1 (hsv hx))
          refine ⟨hrec.1, fun hb => ?_⟩
          obtain ⟨ha, hb', hc⟩ := hrec.2 hb
          rw [hstack1] at ha
          rw [hcyc1] at hb'
          exact ⟨ha, hb', fun x hx => hc (hvis1 hx)⟩
        · intro s hs
          rcases hstk s hs with rfl | hnw
          · exact NW.of_edge hedge
          · exact NW.step hnw hedge

theorem dfs_sound (g : Graph) :
    ∀ f node st b st', dfs g f node st = some (b, st') →
      (∀ s ∈ st.stack, NW g s node) → st.stack ⊆ st.visited → node ∉ st.visited →
      (b = true → HasCycle g) ∧
      (b = false → st'.stack = st.stack ∧ st'.cyc = st.cyc ∧ st.visited ⊆ st'.visited) := by
  intro f
  induction f with
  | zero => intro node st b st' h _ _ _; rw [dfs_zero] at h; cases h
  | succ f ih =>
    intro node st b st' h hstk hsv hnv
    rw [dfs_succ] at h
    have hnstk : node ∉ st.stack := fun hc => hnv (hsv hc)
    have hrec := dfsNeighbors_sound_of g f ih _ node _ b st' h
      (fun nb hnb => hnb)
      (fun s hs => by
        rcases mem_setAdd.mp hs with rfl | hs'
        · exact Or.inl rfl
        · exact Or.inr (hstk s hs'))
      self_mem_setAdd
      (fun s hs => by
        rcases mem_setAdd.mp hs with rfl | hs'
        · exact self_mem_setAdd
        · exact subset_setAdd (hsv hs'))
    refine ⟨hrec.1, fun hb => ?_⟩
    obtain ⟨ha, hb', hc⟩ := hrec.2 hb
    refine ⟨?_, hb', fun x hx => hc (subset_setAdd hx)⟩
    rw [ha]
    exact setDel_setAdd hnstk

/-- Soundness of the outer loop of `detectCycles`: when the final
cycle-membership set is nonempty, the graph really contains a directed
cycle (the invariant also tracks that the recursion stack is empty as long
as no cycle has been reported, which makes the stack hypotheses of
`dfs_sound` trivial). -/
theorem detectCyclesRun_sound (g : Graph) :
    ∀ ks st stf, detectCyclesRun g ks st = some stf →
      (st.cyc ≠ [] → HasCycle g) → (st.cyc = [] → st.stack = []) →
      (stf.cyc ≠ [] → HasCycle g) := by
  intro ks
  induction ks with
  | nil =>
    intro st stf h hcyc _
    rw [detectCyclesRun] at h
    injection h with h'
    subst h'
    exact hcyc
  | cons k ks ih =>
    intro st stf h hcyc hstk
    rw [detectCyclesRun] at h
    split at h
    · exact ih st stf h hcyc hstk
    · rename_i hkv
      split at h
      · cases h
      · rename_i b st1 heq
        by_cases hc : st.cyc = []
        · have hs0 : st.stack = [] := hstk hc
          have hsound := dfs_sound g (graphFuel g) k st b st1 heq
            (by rw [hs0]; intro s hs; cases hs)
            (by rw [hs0]; intro s hs; cases hs) hkv
          cases b
          · obtain ⟨ha, hb, _⟩ := hsound.2 rfl
            exact ih st1 stf h
              (by rw [hb]; exact hcyc)
              (by rw [hb, ha]; intro h1; rw [hs0])
          · have hcycle : HasCycle g := hsound.1 rfl
            have hk1 : k ∈ st1.cyc := dfs_true_cyc g (graphFuel g) k st st1 heq
            exact ih st1 stf h (fun _ => hcycle)
              (fun h1 => absurd (h1 ▸ hk1) (List.not_mem_nil k))
        · have hcycle : HasCycle g := hcyc hc
          have hsub : st.cyc ⊆ st1.cyc := (dfs_mono g (graphFuel g) _ _ _ _ heq).2
          obtain ⟨x, hx⟩ := List.exists_mem_of_ne_nil _ hc
          exact ih st1 stf h (fun _ => hcycle)
            (fun h1 => absurd (h1 ▸ hsub hx) (List.not_mem_nil x))

/-! ## Invariants of the topological-sort traversal -/

/-- State invariant of `dfsSort`: the accumulated post-order `result` is
duplicate-free, dependency-closed in the reversed sense, disjoint from the
recursion stack, and together with the stack covers the visited set. -/
structure TInv (g : Graph) (st : TSState) : Prop where
  good : revGood g st.result.reverse
  nodup : st.result.Nodup
  resVis : ∀ x ∈ st.result, x ∈ st.visited
  resStk : ∀ x ∈ st.result, x ∉ st.stack
  visCover : ∀ x ∈ st.visited, x ∈ st.stack ∨ x ∈ st.result
  stkVis : st.stack ⊆ st.visited

theorem dfsSortNeighbors_sound_of (g : Graph) (f : Nat)
    (hdfs : ∀ node st b st', dfsSort g f node st = some (b, st') →
      TInv g st → node ∉ st.visited → (∀ s ∈ st.stack, NW g s node) →
      (b = false → HasCycle g) ∧
      (b = true → TInv g st' ∧ st'.stack = st.stack ∧ st.visited ⊆ st'.visited ∧
        node ∈ st'.visited ∧ ∃ δ, st'.result = st.result ++ δ ∧ node ∈ δ)) :
    ∀ l node st b st', dfsSortNeighbors g f node l st = some (b, st') →
      TInv g st → node ∈ st.stack →
      (∀ s ∈ st.stack, s = node ∨ NW g s node) →
      (∀ nb ∈ l, Edge g node nb) →
      (∀ nb, Edge g node nb → nb ∈ l ∨ nb ∈ st.result) →
      (b = false → HasCycle g) ∧
      (b = true → TInv g st' ∧ st'.stack = setDel st.stack node ∧
        st.visited ⊆ st'.visited ∧ ∃ δ, st'.result = st.result ++ δ ∧ node ∈ δ) := by
  intro l
  induction l with
  | nil =>
    intro node st b st' h inv hnode hstk _ hdone
    rw [dfsSortNeighbors_nil] at h
    injection h with h'
    injection h' with hb hst
    subst hst
    subst hb
    refine ⟨fun hb => Bool.noConfusion hb, fun _ => ?_⟩
    have hnres : node ∉ st.result := fun hc => inv.resStk node hc hnode
    refine ⟨⟨?_, ?_, ?_, ?_, ?_, ?_⟩, rfl, fun x hx => hx, [node], rfl, List.mem_singleton.mpr rfl⟩
    · show revGood g (st.result ++ [node]).reverse
      rw [List.reverse_append, List.reverse_singleton, List.singleton_append]
      exact ⟨fun nb hnb => List.mem_reverse.mpr
        (by rcases hdone nb hnb with hc | hc
            · cases hc
            · exact hc),
        inv.good⟩
    · show (st.result ++ [node]).Nodup
      simp [List.nodup_append, inv.nodup, hnres]
    · intro x hx
      rcases List.mem_append.mp hx with hx | hx
      · exact inv.resVis x hx
      · rw [List.mem_singleton.mp hx]
        exact inv.stkVis hnode
    · intro x hx hc
      rcases List.mem_append.mp hx with hx | hx
      · exact inv.resStk x hx (setDel_subset hc)
      · rw [List.mem_singleton.mp hx] at hc
        exact not_mem_setDel_self hc
    · intro x hx
      rcases inv.visCover x hx with hs | hr
      · by_cases hxn : x = node
        · exact Or.inr (List.mem_append.mpr (Or.inr (by rw [hxn]; exact List.mem_singleton.mpr rfl)))
        · exact Or.inl (mem_setDel.mpr ⟨hs, hxn⟩)
      · exact Or.inr (List.mem_append.mpr (Or.inl hr))
    · intro x hx
      exact inv.stkVis (setDel_subset hx)
  | cons nb rest ih =>
    intro node st b st' h inv hnode hstk hl hdone
    rw [dfsSortNeighbors_cons] at h
    have hedge : Edge g node nb := hl nb (List.mem_cons.mpr (Or.inl rfl))
    split at h
    · rename_i hvis
      split at h
      · rename_i hins
        injection h with h'
        injection h' with hb hst
        subst hst
        subst hb
        refine ⟨fun _ => ?_, fun hb => Bool.noConfusion hb⟩
        rcases hstk nb hins with rfl | hnw
        · exact hasCycle_of_self_edge hedge
        · exact hasCycle_of_back hnw hedge
      · rename_i hnins
        apply ih node st b st' h inv hnode hstk
          (fun x hx => hl x (List.mem_cons.mpr (Or.inr hx)))
        intro x hx
        rcases hdone x hx with hc | hc
        · rcases List.mem_cons.mp hc with rfl | hc'
          · rcases inv.visCover x hvis with hs | hr
            · exact absurd hs hnins
            · exact Or.inr hr
          · exact Or.inl hc'
        · exact Or.inr hc
    · rename_i hvis
      split at h
      · cases h
      · rename_i st1 heq
        injection h with h'
        injection h' with hb hst
        subst hst
        subst hb
        refine ⟨fun _ => ?_, fun hb => Bool.noConfusion hb⟩
        refine (hdfs nb st false st1 heq inv hvis ?_).1 rfl
        intro s hs
        rcases hstk s hs with rfl | hnw
        · exact NW.of_edge hedge
        · exact NW.step hnw hedge
      · rename_i st1 heq
        have hsub := (hdfs nb st true st1 heq inv hvis ?_).2 rfl
        · obtain ⟨inv1, hstack1, hvis1, hnb1, δ1, hres1, hnbδ1⟩ := hsub
          have hrec := ih node st1 b st' h inv1
            (by rw [hstack1]; exact hnode)
            (by rw [hstack1]; exact hstk)
            (fun x hx => hl x (List.mem_cons.mpr (Or.inr hx)))
            (by
              intro x hx
              rcases hdone x hx with hc | hc
              · rcases List.mem_cons.mp hc with rfl | hc'
                · exact Or.inr (by rw [hres1]; exact List.mem_append.mpr (Or.inr hnbδ1))
                · exact Or.inl hc'
              · exact Or.inr (by rw [hres1]; exact List.mem_append.mpr (Or.inl hc)))
          refine ⟨hrec.1, fun hb => ?_⟩
          obtain ⟨inv', hstack', hvis', δ2, hres2, hnodeδ2⟩ := hrec.2 hb
          refine ⟨inv', by rw [hstack', hstack1], fun x hx => hvis' (hvis1 hx),
            δ1 ++ δ2, ?_, List.mem_append.mpr (Or.inr hnodeδ2)⟩
          rw [hres2, hres1, List.append_assoc]
        · intro s hs
          rcases hstk s hs with rfl | hnw
          · exact NW.of_edge hedge
          · exact NW.step hnw hedge

theorem dfsSort_sound (g : Graph) :
    ∀ f node st b st', dfsSort g f node st = some (b, st') →
      TInv g st → node ∉ st.visited → (∀ s ∈ st.stack, NW g s node) →
      (b = false → HasCycle g) ∧
      (b = true → TInv g st' ∧ st'.stack = st.stack ∧ st.visited ⊆ st'.visited ∧
        node ∈ st'.visited ∧ ∃ δ, st'.result = st.result ++ δ ∧ node ∈ δ) := by
  intro f
  induction f with
  | zero => intro node st b st' h _ _ _; rw [dfsSort_zero] at h; cases h
  | succ f ih =>
    intro node st b st' h inv hnv hstk
    rw [dfsSort_succ] at h
    have hnstk : node ∉ st.stack := fun hc => hnv (inv.stkVis hc)
    have hnres : node ∉ st.result := fun hc => hnv (inv.resVis node hc)
    have inv1 : TInv g { visited := setAdd st.visited node, stack := setAdd st.stack node, result := st.result } := by
      refine ⟨inv.good, inv.nodup, ?_, ?_, ?_, ?_⟩
      · intro x hx
        exact subset_setAdd (inv.resVis x hx)
      · intro x hx hc
        rcases mem_setAdd.mp hc with rfl | hc'
        · exact hnres hx
        · exact inv.resStk x hx hc'
      · intro x hx
        rcases mem_setAdd.mp hx with rfl | hx'
        · exact Or.inl self_mem_setAdd
        · rcases inv.visCover x hx' with hs | hr
          · exact Or.inl (subset_setAdd hs)
          · exact Or.inr hr
      · intro x hx
        rcases mem_setAdd.mp hx with rfl | hx'
        · exact self_mem_setAdd
        · exact subset_setAdd (inv.stkVis hx')
    have hrec := dfsSortNeighbors_sound_of g f ih _ node _ b st' h inv1
      self_mem_setAdd
      (fun s hs => by
        rcases mem_setAdd.mp hs with rfl | hs'
        · exact Or.inl rfl
        · exact Or.inr (hstk s hs'))
      (fun x hx => hx)
      (fun x hx => Or.inl hx)
    refine ⟨hrec.1, fun hb => ?_⟩
    obtain ⟨inv', hstack', hvis', δ, hres, hnodeδ⟩ := hrec.2 hb
    refine ⟨inv', ?_, fun x hx => hvis' (subset_setAdd hx),
      hvis' self_mem_setAdd, δ, hres, hnodeδ⟩
    rw [hstack']
    exact setDel_setAdd hnstk

theorem topologicalSortRun_sound (g : Graph) :
    ∀ ks st r, topologicalSortRun g ks st = some r → TInv g st → st.stack = [] →
      (r = none → HasCycle g) ∧
      (∀ stf, r = some stf → TInv g stf ∧ stf.stack = [] ∧ st.visited ⊆ stf.visited ∧
        ∀ k ∈ ks, k ∈ stf.visited) := by
  intro ks
  induction ks with
  | nil =>
    intro st r h inv hs0
    rw [topologicalSortRun] at h
    injection h with h'
    subst h'
    refine ⟨fun hc => Option.noConfusion hc, fun stf hstf => ?_⟩
    injection hstf with h''
    subst h''
    exact ⟨inv, hs0, fun x hx => hx, fun k hk => absurd hk (List.not_mem_nil k)⟩
  | cons k ks ih =>
    intro st r h inv hs0
    rw [topologicalSortRun] at h
    split at h
    · rename_i hkv
      have hrec := ih st r h inv hs0
      refine ⟨hrec.1, fun stf hstf => ?_⟩
      obtain ⟨inv', hs', hv', hk'⟩ := hrec.2 stf hstf
      refine ⟨inv', hs', hv', fun x hx => ?_⟩
      rcases List.mem_cons.mp hx with rfl | hx'
      · exact hv' hkv
      · exact hk' x hx'
    · rename_i hkv
      split at h
      · cases h
      · rename_i st1 heq
        injection h with h'
        subst h'
        have hsound := dfsSort_sound g (graphFuel g) k st false st1 heq inv hkv
          (by rw [hs0]; intro s hs; cases hs)
        refine ⟨fun _ => hsound.1 rfl, fun stf hstf => by cases hstf⟩
      · rename_i st1 heq
        have hsound := dfsSort_sound g (graphFuel g) k st true st1 heq inv hkv
          (by rw [hs0]; intro s hs; cases hs)
        obtain ⟨inv1, hstack1, hvis1, hk1, _⟩ := hsound.2 rfl
        have hrec := ih st1 r h inv1 (by rw [hstack1]; exact hs0)
        refine ⟨hrec.1, fun stf hstf => ?_⟩
        obtain ⟨inv', hs', hv', hk'⟩ := hrec.2 stf hstf
        refine ⟨inv', hs', fun x hx => hv' (hvis1 hx), fun x hx => ?_⟩
        rcases List.mem_cons.mp hx with rfl | hx'
        · exact hv' hk1
        · exact hk' x hx'

/-! ## A `revGood` ordering on all vertices with out-edges excludes cycles -/

theorem walk_after (g : Graph) :
    ∀ L, revGood g L → ∀ a p b, a ∈ L → p ≠ [] → Walk g a p b →
      ∃ pre post, L = pre ++ a :: post ∧ b ∈ post := by
  intro L
  induction L with
  | nil => intro _ a p b ha _ _; exact absurd ha (List.not_mem_nil a)
  | cons x rest ih =>
    intro hg a p b ha hp hw
    by_cases hax : a = x
    · subst hax
      refine ⟨[], rest, rfl, ?_⟩
      cases p with
      | nil => exact absurd rfl hp
      | cons c p' =>
        obtain ⟨hedge, hw'⟩ := hw
        have hc : c ∈ rest := hg.1 c hedge
        cases p' with
        | nil =>
          have : c = b := hw'
          rw [← this]
          exact hc
        | cons d p'' =>
          obtain ⟨pre', post', _, hb⟩ := ih hg.2 c (d :: p'') b hc (by simp) hw'
          rename_i heq'
          rw [heq']
          exact List.mem_append.mpr (Or.inr (List.mem_cons.mpr (Or.inr hb)))
    · have ha' : a ∈ rest := by
        rcases List.mem_cons.mp ha with h1 | h1
        · exact absurd h1 hax
        · exact h1
      obtain ⟨pre', post', heq', hb⟩ := ih hg.2 a p b ha' hp hw
      exact ⟨x :: pre', post', by rw [heq']; rfl, hb⟩

theorem revGood_no_cycle {g : Graph} {L : List String} (hg : revGood g L) (hn : L.Nodup)
    (hk : ∀ u, graphGet g u ≠ [] → u ∈ L) : ¬HasCycle g := by
  rintro ⟨u, p, hp, hw⟩
  have hu : u ∈ L := by
    cases p with
    | nil => exact absurd rfl hp
    | cons c p' =>
      exact hk u (List.ne_nil_of_mem hw.1)
  obtain ⟨pre, post, heq, hb⟩ := walk_after g L hg u p u hu hp hw
  rw [heq] at hn
  have : (u :: post).Nodup := hn.of_append_right
  exact (List.nodup_cons.mp this).1 hb

/-! ## Correspondence: a clean (`false`) run of `dfs` matches a successful
run of `dfsSort` on the same graph (identical visited/stack evolution) -/

theorem corr_neighbors_of (g : Graph) (f : Nat)
    (hdfs : ∀ node stc stt, stc.visited = stt.visited → stc.stack = stt.stack →
      ∀ stc', dfs g f node stc = some (false, stc') →
        ∃ stt', dfsSort g f node stt = some (true, stt') ∧
          stc'.visited = stt'.visited ∧ stc'.stack = stt'.stack) :
    ∀ l node stc stt, stc.visited = stt.visited → stc.stack = stt.stack →
      ∀ stc', dfsNeighbors g f node l stc = some (false, stc') →
        ∃ stt', dfsSortNeighbors g f node l stt = some (true, stt') ∧
          stc'.visited = stt'.visited ∧ stc'.stack = stt'.stack := by
  intro l
  induction l with
  | nil =>
    intro node stc stt hv hs stc' h
    rw [dfsNeighbors_nil] at h
    injection h with h'
    injection h' with _ hst
    subst hst
    refine ⟨_, dfsSortNeighbors_nil g f node stt, hv, ?_⟩
    show setDel stc.stack node = setDel stt.stack node
    rw [hs]
  | cons nb rest ih =>
    intro node stc stt hv hs stc' h
    rw [dfsNeighbors_cons] at h
    rw [dfsSortNeighbors_cons]
    split at h
    · rename_i hvis
      rw [← hv, if_pos hvis]
      split at h
      · rename_i hins
        injection h with h'
        injection h' with hb _
        exact absurd hb (by simp)
      · rename_i hnins
        rw [← hs, if_neg hnins]
        exact ih node stc stt hv hs stc' h
    · rename_i hvis
      rw [← hv, if_neg hvis]
      split at h
      · cases h
      · rename_i st1 heq
        injection h with h'
        injection h' with hb _
        exact absurd hb (by simp)
      · rename_i st1 heq
        obtain ⟨stt1, heqt, hv1, hs1⟩ := hdfs nb stc stt hv hs st1 heq
        rw [heqt]
        exact ih node st1 stt1 hv1 hs1 stc' h

theorem corr_dfs (g : Graph) :
    ∀ f node stc stt, stc.visited = stt.visited → stc.stack = stt.stack →
      ∀ stc', dfs g f node stc = some (false, stc') →
        ∃ stt', dfsSort g f node stt = some (true, stt') ∧
          stc'.visited = stt'.visited ∧ stc'.stack = stt'.stack := by
  intro f
  induction f with
  | zero => intro node stc stt _ _ stc' h; rw [dfs_zero] at h; cases h
  | succ f ih =>
    intro node stc stt hv hs stc' h
    rw [dfs_succ] at h
    rw [dfsSort_succ]
    exact corr_neighbors_of g f ih _ node _ _ (by show setAdd stc.visited node = _; rw [hv])
      (by show setAdd stc.stack node = _; rw [hs]) stc' h

theorem detectCyclesRun_cyc_mono (g : Graph) :
    ∀ ks st stf, detectCyclesRun g ks st = some stf → st.cyc ⊆ stf.cyc := by
  intro ks
  induction ks with
  | nil =>
    intro st stf h
    rw [detectCyclesRun] at h
    injection h with h'
    subst h'
    exact fun x hx => hx
  | cons k ks ih =>
    intro st stf h
    rw [detectCyclesRun] at h
    split at h
    · exact ih st stf h
    · split at h
      · cases h
      · rename_i b st1 heq
        exact fun x hx => ih st1 stf h ((dfs_mono g (graphFuel g) _ _ _ _ heq).2 hx)

/-- When the whole `detectCycles` run ends with an empty cycle set, the
topological-sort run on the same graph succeeds with a full ordering. -/
theorem corr_run (g : Graph) :
    ∀ ks stc stt, stc.visited = stt.visited → stc.stack = stt.stack →
      ∀ stf, detectCyclesRun g ks stc = some stf → stf.cyc = [] → stc.cyc ⊆ stf.cyc →
        ∃ sttf, topologicalSortRun g ks stt = some (some sttf) := by
  intro ks
  induction ks with
  | nil =>
    intro stc stt _ _ stf h _ _
    exact ⟨stt, by rw [topologicalSortRun]⟩
  | cons k ks ih =>
    intro stc stt hv hs stf h hcyc hsub
    rw [detectCyclesRun] at h
    rw [topologicalSortRun]
    split at h
    · rename_i hkv
      rw [← hv, if_pos hkv]
      exact ih stc stt hv hs stf h hcyc hsub
    · rename_i hkv
      rw [← hv, if_neg hkv]
      split at h
      · cases h
      · rename_i b st1 heq
        have hcycsub : st1.cyc ⊆ stf.cyc := detectCyclesRun_cyc_mono g ks st1 stf h
        cases b
        · obtain ⟨stt1, heqt, hv1, hs1⟩ := corr_dfs g (graphFuel g) k stc stt hv hs st1 heq
          rw [heqt]
          exact ih st1 stt1 hv1 hs1 stf h hcyc hcycsub
        · exfalso
          have hk1 : k ∈ st1.cyc := dfs_true_cyc g (graphFuel g) k stc st1 heq
          have : k ∈ stf.cyc := hcycsub hk1
          rw [hcyc] at this
          exact List.not_mem_nil k this

/-! ## Top-level characterisations of `detectCycles` and `topologicalSort` -/

theorem TInv_init (g : Graph) : TInv g ⟨[], [], []⟩ := by
  refine ⟨?_, List.nodup_nil, ?_, ?_, ?_, ?_⟩
  · show revGood g ([] : List String).reverse
    rw [List.reverse_nil]
    trivial
  · intro x hx; exact absurd hx (List.not_mem_nil x)
  · intro x hx; exact absurd hx (List.not_mem_nil x)
  · intro x hx; exact absurd hx (List.not_mem_nil x)
  · intro x hx; exact hx

theorem detectCycles_run_eq (tasks : List ValidatedTask) :
    ∃ st, detectCyclesRun (buildGraph tasks) (graphKeys (buildGraph tasks)) ⟨[], [], []⟩ =
        some st ∧
      detectCycles tasks =
        { hasCycles := !st.cyc.isEmpty
          cycleNodes := st.cyc
          tasks := tasks.map (fun task =>
            if task.id ∈ st.cyc then
              { task with status := TaskStatus.error, errorMessage := some cycleErrorMessage }
            else task) } := by
  have hsome := detectCyclesRun_isSome (buildGraph tasks) (graphKeys (buildGraph tasks))
    ⟨[], [], []⟩ (fun k hk => keys_subset_nodesOf hk)
  obtain ⟨st, heq⟩ := Option.isSome_iff_exists.mp hsome
  refine ⟨st, heq, ?_⟩
  rw [detectCycles, detectCyclesO]
  simp only [heq]
  rfl

/-- From a successful full topological-sort run, the graph is acyclic. -/
theorem no_cycle_of_tsRun (g : Graph) (stf : TSState)
    (h : topologicalSortRun g (graphKeys g) ⟨[], [], []⟩ = some (some stf)) :
    ¬HasCycle g := by
  have hsound := topologicalSortRun_sound g (graphKeys g) ⟨[], [], []⟩ (some stf) h
    (TInv_init g) rfl
  obtain ⟨inv, hstk, _, hkeys⟩ := hsound.2 stf rfl
  apply revGood_no_cycle inv.good (List.nodup_reverse.mpr inv.nodup)
  intro u hu
  have huk : u ∈ graphKeys g := mem_keys_of_graphGet_ne hu
  have huv : u ∈ stf.visited := hkeys u huk
  rcases inv.visCover u huv with hs | hr
  · rw [hstk] at hs; exact absurd hs (List.not_mem_nil u)
  · exact List.mem_reverse.mpr hr

/-- The cycle set computed by `detectCycles` is empty exactly when the
sanitized dependency graph is acyclic. -/
theorem detectCycles_cyc_empty_iff (tasks : List ValidatedTask) (st : CDState)
    (heq : detectCyclesRun (buildGraph tasks) (graphKeys (buildGraph tasks)) ⟨[], [], []⟩ =
      some st) :
    st.cyc = [] ↔ ¬HasCycle (buildGraph tasks) := by
  constructor
  · intro hc
    obtain ⟨sttf, heqt⟩ := corr_run (buildGraph tasks) (graphKeys (buildGraph tasks))
      ⟨[], [], []⟩ ⟨[], [], []⟩ rfl rfl st heq hc (fun x hx => absurd hx (List.not_mem_nil x))
    exact no_cycle_of_tsRun (buildGraph tasks) sttf heqt
  · intro hnc
    by_contra hne
    exact hnc (detectCyclesRun_sound (buildGraph tasks) (graphKeys (buildGraph tasks))
      ⟨[], [], []⟩ st heq (fun hx => absurd rfl hx) (fun _ => rfl) hne)

theorem hasCycles_iff (tasks : List ValidatedTask) :
    (detectCycles tasks).hasCycles = true ↔ HasCycle (buildGraph tasks) := by
  obtain ⟨st, heq, hres⟩ := detectCycles_run_eq tasks
  rw [hres]
  show (!st.cyc.isEmpty) = true ↔ _
  rw [Bool.not_eq_eq_eq_not]
  constructor
  · intro h
    have hne : st.cyc ≠ [] := by
      intro hc
      rw [hc] at h
      cases h
    by_contra hnc
    exact hne ((detectCycles_cyc_empty_iff tasks st heq).mpr hnc)
  · intro h
    by_contra hb
    have : st.cyc.isEmpty = true := by
      cases hv : st.cyc.isEmpty
      · rw [hv] at hb; exact absurd rfl hb
      · rfl
    have hc : st.cyc = [] := List.isEmpty_iff.mp this
    exact (detectCycles_cyc_empty_iff tasks st heq).mp hc h

theorem beforeInB_of_revGood {g : Graph} {L : List String} {u v : String}
    (hg : revGood g L) (hu : u ∈ L) (hv : v ∈ graphGet g u) :
    beforeInB L u v = true := by
  induction L with
  | nil => exact absurd hu (List.not_mem_nil u)
  | cons x rest ih =>
    rw [beforeInB]
    by_cases hx : x = u
    · rw [if_pos hx]
      subst hx
      exact decide_eq_true (hg.1 v hv)
    · rw [if_neg hx]
      refine ih hg.2 ?_
      rcases List.mem_cons.mp hu with h1 | h1
      · exact absurd h1.symm hx
      · exact h1

/-- `topologicalSort` on an acyclic graph succeeds, and the returned order
lists every vertex that has an out-edge, with each vertex strictly before
all of its graph successors (dependent before dependency). -/
theorem topologicalSort_acyclic (tasks : List ValidatedTask)
    (hnc : ¬HasCycle (buildGraph tasks)) :
    ∃ L, topologicalSort tasks = some L ∧
      ∀ u v, v ∈ graphGet (buildGraph tasks) u → beforeInB L u v = true := by
  obtain ⟨st, heq, _⟩ := detectCycles_run_eq tasks
  have hc : st.cyc = [] := (detectCycles_cyc_empty_iff tasks st heq).mpr hnc
  obtain ⟨sttf, heqt⟩ := corr_run (buildGraph tasks) (graphKeys (buildGraph tasks))
    ⟨[], [], []⟩ ⟨[], [], []⟩ rfl rfl st heq hc (fun x hx => absurd hx (List.not_mem_nil x))
  refine ⟨sttf.result.reverse, ?_, ?_⟩
  · rw [topologicalSort, topologicalSortO]
    simp only [heqt]
    rfl
  · intro u v hv
    have hsound := topologicalSortRun_sound (buildGraph tasks)
      (graphKeys (buildGraph tasks)) ⟨[], [], []⟩ (some sttf) heqt (TInv_init _) rfl
    obtain ⟨inv, hstk, _, hkeys⟩ := hsound.2 sttf rfl
    apply beforeInB_of_revGood inv.good
    · have huk : u ∈ graphKeys (buildGraph tasks) :=
        mem_keys_of_graphGet_ne (List.ne_nil_of_mem hv)
      have huv : u ∈ sttf.visited := hkeys u huk
      rcases inv.visCover u huv with hs | hr
      · rw [hstk] at hs; exact absurd hs (List.not_mem_nil u)
      · exact List.mem_reverse.mpr hr
    · exact hv

/-- `topologicalSort` fails (returns `null`) exactly on cyclic graphs. -/
theorem topologicalSort_none_of_cycle (tasks : List ValidatedTask)
    (hc : HasCycle (buildGraph tasks)) : topologicalSort tasks = none := by
  rw [topologicalSort, topologicalSortO]
  cases hrun : topologicalSortRun (buildGraph tasks) (graphKeys (buildGraph tasks))
    ⟨[], [], []⟩ with
  | none => rfl
  | some r =>
    cases r with
    | none => rfl
    | some stf => exact absurd hc (no_cycle_of_tsRun (buildGraph tasks) stf hrun)

/-! ## Persisted tasks and the task-completion route (`taskRoutes.ts`)

`StoredTask` mirrors the `Task` mongoose document; the unique `transcriptId`
object id of a transcript is represented by its (unique) `jobId`. -/

structure StoredTask where
  taskId : String
  description : String
  priority : Priority
  dependencies : List String
  status : TaskStatus
  errorMessage : Option String
  transcriptId : String
deriving DecidableEq, Repr

/-- `findOneAndUpdate` / `save` semantics: update the first element
satisfying the predicate, leave the rest (and a no-match list) unchanged. -/
def updateFirstBy {α : Type} : List α → (α → Bool) → (α → α) → List α
  | [], _, _ => []
  | x :: xs, p, f => if p x then f x :: xs else x :: updateFirstBy xs p f

/-- The shape handed to `calculateTaskStatuses` by the route (only `id`,
`description`, `priority`, `dependencies`, `status` are passed along). -/
def toValidated (t : StoredTask) : ValidatedTask :=
  { id := t.taskId, description := t.description, priority := t.priority,
    dependencies := t.dependencies, status := t.status,
    errorMessage := none, sanitizedDependencies := none }

structure CompleteTaskResult where
  completedTask : StoredTask
  allTasks : List StoredTask
deriving DecidableEq, Repr

/-- Embedding of `PATCH /api/tasks/:taskId/complete`: find the task (404 when
missing), set it `completed`, recompute readiness over the non-terminal
tasks of the owning transcript, and persist the recomputed statuses. -/
def completeTask (store : List StoredTask) (tid : String) :
    Option CompleteTaskResult × List StoredTask :=
  match store.find? (fun t => t.taskId = tid) with
  | none => (none, store)
  | some task =>
    let store1 := updateFirstBy store (fun t => t.taskId = tid)
      (fun t => { t with status := TaskStatus.completed })
    let allTasks := store1.filter (fun t => t.transcriptId = task.transcriptId)
    let completedTaskIds :=
      (allTasks.filter (fun t => t.status = TaskStatus.completed)).map (·.taskId)
    let tasksToUpdate := allTasks.filter
      (fun t => t.status ≠ TaskStatus.completed ∧ t.status ≠ TaskStatus.error)
    let updatedTasks := calculateTaskStatuses (tasksToUpdate.map toValidated) completedTaskIds
    let store2 := updatedTasks.foldl
      (fun sacc u => updateFirstBy sacc (fun t => t.taskId = u.id)
        (fun t => { t with status := u.status })) store1
    let finalTasks := store2.filter (fun t => t.transcriptId = task.transcriptId)
    (some { completedTask := { task with status := TaskStatus.completed },
            allTasks := finalTasks }, store2)

/-! ## Content hashing and idempotent submission
(`utils/hash.ts`, `idempotencyService.ts`, `transcriptRoutes.ts`)

`generateContentHash` computes SHA-256 of the trimmed, lower-cased content;
SHA-256 is an (assumed collision-free) injective fingerprint of its input,
so it is modelled as the normalized text itself.  JS `String.prototype.trim`
and `toLowerCase` are embedded explicitly on the character list (whitespace
restricted to the common ASCII whitespace characters). -/

def jsWhitespace (c : Char) : Bool :=
  c = ' ' || c = '\t' || c = '\n' || c = '\r' || c = '\x0b' || c = '\x0c'

def trimData (l : List Char) : List Char :=
  ((l.dropWhile jsWhitespace).reverse.dropWhile jsWhitespace).reverse

def jsTrim (s : String) : String := ⟨trimData s.data⟩

def toLowerStr (s : String) : String := ⟨s.data.map Char.toLower⟩

def generateContentHash (content : String) : String := toLowerStr (jsTrim content)

inductive TranscriptStatus where
  | pending
  | processing
  | completed
  | failed
deriving DecidableEq, Repr

structure TranscriptMetadata where
  taskCount : Nat
  cyclesDetected : Bool
  processingTime : Nat
deriving DecidableEq, Repr

structure Transcript where
  jobId : String
  content : String
  contentHash : String
  status : TranscriptStatus
  errorMessage : Option String
  metadata : Option TranscriptMetadata
deriving DecidableEq, Repr

inductive JobStatus where
  | pending
  | processing
  | completed
  | failed
deriving DecidableEq, Repr

structure Job where
  jobId : String
  transcriptId : String
  status : JobStatus
deriving DecidableEq, Repr

/-- The persistent and in-memory state touched by the routes and the job
queue: stored transcripts and tasks, the in-memory jobs map and the pending
queue. -/
structure SysState where
  transcripts : List Transcript
  tasks : List StoredTask
  jobs : List Job
  queue : List String
deriving DecidableEq, Repr

/-- Embedding of `IdempotencyService.checkDuplicate` (`findOne` by content
hash returns the first stored match). -/
def checkDuplicate (transcripts : List Transcript) (content : String) : Option Transcript :=
  transcripts.find? (fun t => t.contentHash = generateContentHash content)

structure SubmitResult where
  httpStatus : Nat
  jobId : Option String
  isDuplicate : Bool
deriving DecidableEq, Repr

/-- Embedding of `POST /api/transcripts`: the express-validator `.trim()`
sanitizer replaces the body by its trimmed form, the length-50 validation
rejects with 400, a duplicate hash returns the existing job with 200 and no
state change, and otherwise a transcript is created, a job enqueued, and 202
returned with the fresh job id. -/
def submitTranscript (s : SysState) (freshJobId : String) (rawBody : String) :
    SubmitResult × SysState :=
  let transcript := jsTrim rawBody
  if transcript.length < 50 then
    ({ httpStatus := 400, jobId := none, isDuplicate := false }, s)
  else
    match checkDuplicate s.transcripts transcript with
    | some existing =>
      ({ httpStatus := 200, jobId := some existing.jobId, isDuplicate := true }, s)
    | none =>
      let doc : Transcript :=
        { jobId := freshJobId, content := transcript,
          contentHash := generateContentHash transcript,
          status := TranscriptStatus.pending, errorMessage := none, metadata := none }
      ({ httpStatus := 202, jobId := some freshJobId, isDuplicate := false },
       { s with
         transcripts := s.transcripts ++ [doc]
         jobs := s.jobs ++
           [{ jobId := freshJobId, transcriptId := freshJobId, status := JobStatus.pending }]
         queue := s.queue ++ [freshJobId] })

/-! ## Job processing (`jobQueue.ts`)

The external generator (`llmService.extractTasksFromTranscript`) is an
oracle from transcript content to either a task batch or a thrown error
message; `processJob` is its caller, with the `catch` branch marking the
transcript `failed`.  Wall-clock processing time is not modelled (stored as
`0`). -/

def failedMessage (msg : String) : String :=
  if msg = "" then "Unknown error occurred" else msg

def processJob (gen : String → Except String (List TaskOutput)) (s : SysState)
    (jobId : String) : SysState :=
  let s1 : SysState :=
    { s with
      jobs := updateFirstBy s.jobs (fun j => j.jobId = jobId)
        (fun j => { j with status := JobStatus.processing })
      transcripts := updateFirstBy s.transcripts (fun t => t.jobId = jobId)
        (fun t => { t with status := TranscriptStatus.processing }) }
  match s1.transcripts.find? (fun t => t.jobId = jobId) with
  | none =>
    { s1 with
      jobs := updateFirstBy s1.jobs (fun j => j.jobId = jobId)
        (fun j => { j with status := JobStatus.failed })
      transcripts := updateFirstBy s1.transcripts (fun t => t.jobId = jobId)
        (fun t => { t with
                    status := TranscriptStatus.failed
                    errorMessage := some (failedMessage "Transcript not found") }) }
  | some transcript =>
    match gen transcript.content with
    | Except.error msg =>
      { s1 with
        jobs := updateFirstBy s1.jobs (fun j => j.jobId = jobId)
          (fun j => { j with status := JobStatus.failed })
        transcripts := updateFirstBy s1.transcripts (fun t => t.jobId = jobId)
          (fun t => { t with
                      status := TranscriptStatus.failed
                      errorMessage := some (failedMessage msg) }) }
    | Except.ok llmTasks =>
      let cycleResult := detectCycles (validateAndSanitizeTasks llmTasks)
      let savedTasks : List StoredTask := cycleResult.tasks.map (fun t =>
        { taskId := t.id, description := t.description, priority := t.priority,
          dependencies := t.dependencies, status := t.status,
          errorMessage := t.errorMessage, transcriptId := transcript.jobId })
      { s1 with
        tasks := s1.tasks ++ savedTasks
        transcripts := updateFirstBy s1.transcripts (fun t => t.jobId = jobId)
          (fun t => { t with
                      status := TranscriptStatus.completed
                      metadata := some { taskCount := savedTasks.length,
                                         cyclesDetected := cycleResult.hasCycles,
                                         processingTime := 0 } })
        jobs := updateFirstBy s1.jobs (fun j => j.jobId = jobId)
          (fun j => { j with status := JobStatus.completed }) }

/-- The drain loop of `processQueue`: items are removed in arrival order;
an id without a jobs-map entry is skipped (`if (!job) continue`), and a
failing `processJob` is caught so the loop continues. -/
def drainList (gen : String → Except String (List TaskOutput)) :
    List String → SysState → SysState
  | [], s => s
  | j :: rest, s =>
    match s.jobs.find? (fun jb => jb.jobId = j) with
    | none => drainList gen rest s
    | some _ => drainList gen rest (processJob gen s j)

def processQueue (gen : String → Except String (List TaskOutput)) (s : SysState) : SysState :=
  drainList gen s.queue { s with queue := [] }

/-! ## Job polling (`jobRoutes.ts`) -/

structure PollResponse where
  jobId : String
  status : TranscriptStatus
  tasks : List StoredTask
  metadata : Option TranscriptMetadata
  errorMessage : Option String
deriving DecidableEq, Repr

/-- Embedding of `GET /api/jobs/:jobId`: 404 on an unknown job id; the task
list is populated only when the transcript status is `completed`. -/
def getJob (s : SysState) (jobId : String) : Option PollResponse :=
  match s.transcripts.find? (fun t => t.jobId = jobId) with
  | none => none
  | some transcript =>
    some { jobId := jobId
           status := transcript.status
           tasks :=
             if transcript.status = TranscriptStatus.completed then
               s.tasks.filter (fun t => t.transcriptId = transcript.jobId)
             else []
           metadata := transcript.metadata
           errorMessage := transcript.errorMessage }

/-! ## The scheduler's concurrency behaviour (`jobQueue.ts`)

JavaScript runs each code region between `await` points atomically
(run-to-completion).  The queue scheduler is embedded as a transition
relation whose steps are exactly those synchronous regions:

* `enqueue_busy` — `enqueueJob` while the worker is draining: push only.
* `enqueue_idle` — `enqueueJob` while idle: push, then the synchronous
  prefix of `processQueue` (flag check, flag set, first pop, entry into
  `processJob` up to its first `await`).
* `finish_next` / `finish_idle` — the awaited `processJob` returns: the loop
  pops the next entry (skipping ids without a jobs-map entry) or, seeing the
  queue empty, clears `isProcessing` and goes idle.

`jobKeys` is the key set of the `jobs` map, `running` the set of jobs
currently inside `processJob`, `startedLog`/`enqueueLog` the history of
processing starts and of enqueues (the body of `processJob` itself is
orthogonal to scheduling and is abstracted). -/

structure QueueState where
  queue : List String
  jobKeys : List String
  isProcessing : Bool
  running : List String
  startedLog : List String
  enqueueLog : List String
deriving DecidableEq, Repr

/-- Pop entries in arrival order until one has a jobs-map entry
(`if (!jobId) continue; if (!job) continue;`). -/
def popNext : List String → List String → Option (String × List String)
  | [], _ => none
  | j :: rest, keys => if j ∈ keys then some (j, rest) else popNext rest keys

def initQueueState : QueueState :=
  { queue := [], jobKeys := [], isProcessing := false,
    running := [], startedLog := [], enqueueLog := [] }

inductive QStep : QueueState → QueueState → Prop
  | enqueue_busy (s : QueueState) (j : String) (h : s.isProcessing = true) :
      QStep s { s with
                queue := s.queue ++ [j]
                jobKeys := s.jobKeys ++ [j]
                enqueueLog := s.enqueueLog ++ [j] }
  | enqueue_idle (s : QueueState) (j j' : String) (q' : List String)
      (h : s.isProcessing = false)
      (hpop : popNext (s.queue ++ [j]) (s.jobKeys ++ [j]) = some (j', q')) :
      QStep s { queue := q'
                jobKeys := s.jobKeys ++ [j]
                isProcessing := true
                running := [j']
                startedLog := s.startedLog ++ [j']
                enqueueLog := s.enqueueLog ++ [j] }
  | finish_next (s : QueueState) (j j' : String) (q' : List String)
      (hrun : s.running = [j])
      (hpop : popNext s.queue s.jobKeys = some (j', q')) :
      QStep s { s with
                queue := q'
                running := [j']
                startedLog := s.startedLog ++ [j'] }
  | finish_idle (s : QueueState) (j : String)
      (hrun : s.running = [j])
      (hpop : popNext s.queue s.jobKeys = none) :
      QStep s { s with queue := [], running := [], isProcessing := false }

/-- The scheduler invariant: at most one job is in flight, the busy flag
tracks exactly that, the worker is never idle with a nonempty queue, jobs
start in enqueue order with nothing lost, and every queued id has a
jobs-map entry. -/
structure QInv (s : QueueState) : Prop where
  mutex : s.running.length ≤ 1
  busy : s.isProcessing = true ↔ s.running ≠ []
  idleEmpty : s.isProcessing = false → s.queue = []
  fifo : s.startedLog ++ s.queue = s.enqueueLog
  queueKeys : ∀ j ∈ s.queue, j ∈ s.jobKeys

/-! ## Lemmas about trimming and hashing -/

theorem dropWhile_head_false {p : Char → Bool} :
    ∀ (l : List Char) (a : Char) (t : List Char), l.dropWhile p = a :: t → p a = false := by
  intro l
  induction l with
  | nil => intro a t h; simp [List.dropWhile] at h
  | cons x xs ih =>
    intro a t h
    rw [List.dropWhile_cons] at h
    split at h
    · exact ih a t h
    · rename_i hpx
      injection h with h1 h2
      subst h1
      cases hc : p x
      · rfl
      · exact absurd hc hpx

theorem dropWhile_eq_self_of_head_false {p : Char → Bool} {a : Char} {t : List Char}
    (h : p a = false) : (a :: t).dropWhile p = a :: t := by
  rw [List.dropWhile_cons, if_neg (by simp [h])]

theorem trimData_idem (l : List Char) : trimData (trimData l) = trimData l := by
  unfold trimData
  generalize hA : l.dropWhile jsWhitespace = A
  generalize hB : A.reverse.dropWhile jsWhitespace = B
  cases hBc : B with
  | nil => simp
  | cons b bt =>
    have hpb : jsWhitespace b = false := dropWhile_head_false A.reverse b bt (by rw [hB, hBc])
    have hsplit : A.reverse.takeWhile jsWhitespace ++ B = A.reverse := by
      rw [← hB]; exact List.takeWhile_append_dropWhile _ _
    generalize hT : A.reverse.takeWhile jsWhitespace = T at hsplit
    have hAeq : A = B.reverse ++ T.reverse := by
      have h2 := congrArg List.reverse hsplit
      rw [List.reverse_append, List.reverse_reverse] at h2
      exact h2.symm
    have hBrev : ∃ c r, B.reverse = c :: r := by
      rw [hBc]
      cases hr : (b :: bt).reverse with
      | nil => exact absurd hr (by simp)
      | cons c r => exact ⟨c, r, rfl⟩
    obtain ⟨c, r, hcr⟩ := hBrev
    have hAcons : A = c :: (r ++ T.reverse) := by
      rw [hAeq, hcr]
      rfl
    have hpc : jsWhitespace c = false := by
      apply dropWhile_head_false l c (r ++ T.reverse)
      rw [hA]
      exact hAcons
    have step1 : B.reverse.dropWhile jsWhitespace = B.reverse := by
      rw [hcr]
      exact dropWhile_eq_self_of_head_false hpc
    rw [← hBc, step1, List.reverse_reverse, hBc, dropWhile_eq_self_of_head_false hpb]

theorem jsTrim_idem (s : String) : jsTrim (jsTrim s) = jsTrim s := by
  show (⟨trimData (trimData s.data)⟩ : String) = ⟨trimData s.data⟩
  rw [trimData_idem]

theorem generateContentHash_jsTrim (s : String) :
    generateContentHash (jsTrim s) = generateContentHash s := by
  rw [generateContentHash, generateContentHash, jsTrim_idem]

theorem toLowerStr_length (s : String) : (toLowerStr s).length = s.length := by
  show (s.data.map Char.toLower).length = s.data.length
  exact List.length_map s.data Char.toLower

/-! ## Lemmas about `updateFirstBy` and `find?` -/

theorem updateFirstBy_mem_of_neg {α : Type} {l : List α} {p : α → Bool} {f : α → α} {x : α}
    (hx : x ∈ l) (hpx : p x = false) : x ∈ updateFirstBy l p f := by
  induction l with
  | nil => exact absurd hx (List.not_mem_nil x)
  | cons y ys ih =>
    rw [updateFirstBy]
    split
    · rename_i hpy
      rcases List.mem_cons.mp hx with rfl | hx'
      · rw [hpy] at hpx; cases hpx
      · exact List.mem_cons.mpr (Or.inr hx')
    · rcases List.mem_cons.mp hx with rfl | hx'
      · exact List.mem_cons.mpr (Or.inl rfl)
      · exact List.mem_cons.mpr (Or.inr (ih hx'))

theorem updateFirstBy_map_eq {α β : Type} (l : List α) (p : α → Bool) (f : α → α)
    (m : α → β) (hm : ∀ x, m (f x) = m x) : (updateFirstBy l p f).map m = l.map m := by
  induction l with
  | nil => rfl
  | cons y ys ih =>
    rw [updateFirstBy]
    split
    · rw [List.map_cons, List.map_cons, hm]
    · rw [List.map_cons, List.map_cons, ih]

theorem find?_updateFirstBy_of_neg {α : Type} {l : List α} {p q : α → Bool} {f : α → α}
    (hq : ∀ x, q (f x) = q x) (hpq : ∀ x, p x = true → q x = false) :
    (updateFirstBy l p f).find? q = l.find? q := by
  induction l with
  | nil => rfl
  | cons y ys ih =>
    rw [updateFirstBy]
    split
    · rename_i hpy
      have hqy : q y = false := hpq y hpy
      rw [List.find?_cons_of_neg _ (by simp [hq, hqy]), List.find?_cons_of_neg _ (by simp [hqy])]
    · cases hqy : q y
      · rw [List.find?_cons_of_neg _ (by simp [hqy]), List.find?_cons_of_neg _ (by simp [hqy]), ih]
      · rw [List.find?_cons_of_pos _ hqy, List.find?_cons_of_pos _ hqy]

theorem find?_updateFirstBy_self {α : Type} {l : List α} {p : α → Bool} {f : α → α}
    (hpf : ∀ x, p x = true → p (f x) = true) :
    (updateFirstBy l p f).find? p = (l.find? p).map f := by
  induction l with
  | nil => rfl
  | cons y ys ih =>
    rw [updateFirstBy]
    split
    · rename_i hpy
      rw [List.find?_cons_of_pos _ (hpf y hpy), List.find?_cons_of_pos _ hpy]
      rfl
    · rename_i hpy
      have hpy' : p y = false := by
        cases hc : p y
        · rfl
        · exact absurd hc hpy
      rw [List.find?_cons_of_neg _ (by simp [hpy']), List.find?_cons_of_neg _ (by simp [hpy']), ih]

/-! ## The queue scheduler invariant is preserved by every step -/

theorem popNext_cons_mem {h : String} {t keys : List String} (hm : h ∈ keys) :
    popNext (h :: t) keys = some (h, t) := by
  rw [popNext, if_pos hm]

theorem popNext_subset_some {q keys : List String} {j' : String} {q' : List String}
    (hsub : ∀ j ∈ q, j ∈ keys) (hpop : popNext q keys = some (j', q')) :
    q = j' :: q' := by
  cases q with
  | nil => cases hpop
  | cons h t =>
    rw [popNext_cons_mem (hsub h (List.mem_cons.mpr (Or.inl rfl)))] at hpop
    injection hpop with h1
    injection h1 with h2 h3
    rw [h2, h3]

theorem popNext_subset_none {q keys : List String}
    (hsub : ∀ j ∈ q, j ∈ keys) (hpop : popNext q keys = none) : q = [] := by
  cases q with
  | nil => rfl
  | cons h t =>
    rw [popNext_cons_mem (hsub h (List.mem_cons.mpr (Or.inl rfl)))] at hpop
    cases hpop

theorem QInv_init : QInv initQueueState := by
  refine ⟨?_, ?_, ?_, ?_, ?_⟩
  · show ([] : List String).length ≤ 1
    simp
  · show (false = true) ↔ ([] : List String) ≠ []
    simp
  · intro _; rfl
  · rfl
  · intro j hj; exact absurd hj (List.not_mem_nil j)

theorem QInv_step {s s' : QueueState} (hs : QInv s) (hstep : QStep s s') : QInv s' := by
  cases hstep with
  | enqueue_busy j h =>
    refine ⟨hs.mutex, ?_, ?_, ?_, ?_⟩
    · exact hs.busy
    · intro hf
      show s.queue ++ [j] = []
      rw [h] at hf
      cases hf
    · show s.startedLog ++ (s.queue ++ [j]) = s.enqueueLog ++ [j]
      rw [← List.append_assoc, hs.fifo]
    · intro x hx
      rcases List.mem_append.mp hx with hx' | hx'
      · exact List.mem_append.mpr (Or.inl (hs.queueKeys x hx'))
      · exact List.mem_append.mpr (Or.inr hx')
  | enqueue_idle j j' q' h hpop =>
    have hq : s.queue = [] := hs.idleEmpty h
    rw [hq, List.nil_append,
      popNext_cons_mem (List.mem_append.mpr (Or.inr (List.mem_singleton.mpr rfl)))] at hpop
    injection hpop with h1
    injection h1 with h2 h3
    subst h2
    subst h3
    refine ⟨?_, ?_, ?_, ?_, ?_⟩
    · show [j].length ≤ 1
      simp
    · show (true = true) ↔ [j] ≠ []
      simp
    · intro hf; cases hf
    · show s.startedLog ++ [j] ++ [] = s.enqueueLog ++ [j]
      rw [List.append_nil]
      have : s.startedLog = s.enqueueLog := by
        have := hs.fifo
        rw [hq, List.append_nil] at this
        exact this
      rw [this]
    · intro x hx; exact absurd hx (List.not_mem_nil x)
  | finish_next j j' q' hrun hpop =>
    have hqeq : s.queue = j' :: q' := popNext_subset_some hs.queueKeys hpop
    have hproc : s.isProcessing = true := hs.busy.mpr (by rw [hrun]; simp)
    refine ⟨?_, ?_, ?_, ?_, ?_⟩
    · show [j'].length ≤ 1
      simp
    · show (s.isProcessing = true) ↔ [j'] ≠ []
      rw [hproc]
      simp
    · intro hf
      rw [hproc] at hf
      cases hf
    · show s.startedLog ++ [j'] ++ q' = s.enqueueLog
      rw [List.append_assoc, List.singleton_append, ← hqeq]
      exact hs.fifo
    · intro x hx
      exact hs.queueKeys x (by rw [hqeq]; exact List.mem_cons.mpr (Or.inr hx))
  | finish_idle j hrun hpop =>
    have hqeq : s.queue = [] := popNext_subset_none hs.queueKeys hpop
    refine ⟨?_, ?_, ?_, ?_, ?_⟩
    · show ([] : List String).length ≤ 1
      simp
    · show (false = true) ↔ ([] : List String) ≠ []
      simp
    · intro _; rfl
    · show s.startedLog ++ [] = s.enqueueLog
      rw [List.append_nil]
      have := hs.fifo
      rw [hqeq, List.append_nil] at this
      exact this
    · intro x hx; exact absurd hx (List.not_mem_nil x)

theorem QInv_reachable {s : QueueState}
    (h : Relation.ReflTransGen QStep initQueueState s) : QInv s := by
  induction h with
  | refl => exact QInv_init
  | tail _ hstep ih => exact QInv_step ih hstep

/-! ## Per-task facts about the sanitize/detect pipeline -/

theorem mem_validateAndSanitizeTasks {ts : List TaskOutput} {t : ValidatedTask}
    (ht : t ∈ validateAndSanitizeTasks ts) :
    ∃ t0 ∈ ts, t.id = t0.id ∧ t.status = TaskStatus.ready ∧
      ∀ d ∈ t.dependencies, d ∈ ts.map (·.id) := by
  simp only [validateAndSanitizeTasks] at ht
  obtain ⟨t0, ht0, heq⟩ := List.mem_map.mp ht
  refine ⟨t0, ht0, ?_, ?_, ?_⟩
  · rw [← heq]
  · rw [← heq]
  · intro d hd
    rw [← heq] at hd
    exact of_decide_eq_true (List.mem_filter.mp hd).2

theorem validateAndSanitizeTasks_ids (ts : List TaskOutput) :
    (validateAndSanitizeTasks ts).map (fun t => t.id) = ts.map (fun t => t.id) := by
  simp only [validateAndSanitizeTasks, List.map_map]
  rfl

theorem mem_detectCycles_tasks {tasks : List ValidatedTask} {t : ValidatedTask}
    (ht : t ∈ (detectCycles tasks).tasks) :
    ∃ t0 ∈ tasks,
      (t0.id ∈ (detectCycles tasks).cycleNodes ∧
        t = { t0 with
              status := TaskStatus.error
              errorMessage := some cycleErrorMessage }) ∨
      (t0.id ∉ (detectCycles tasks).cycleNodes ∧ t = t0) := by
  obtain ⟨st, heq, hres⟩ := detectCycles_run_eq tasks
  rw [hres] at ht ⊢
  obtain ⟨t0, ht0, heq2⟩ := List.mem_map.mp ht
  by_cases hc : t0.id ∈ st.cyc
  · rw [if_pos hc] at heq2
    exact ⟨t0, ht0, Or.inl ⟨hc, heq2.symm⟩⟩
  · rw [if_neg hc] at heq2
    exact ⟨t0, ht0, Or.inr ⟨hc, heq2.symm⟩⟩

/-- Every task persisted by the pipeline is either a cycle member with
status `error` or a non-member with status `ready`; no initial readiness
recomputation takes place. -/
theorem pipeline_status (ts : List TaskOutput) :
    ∀ t ∈ (detectCycles (validateAndSanitizeTasks ts)).tasks,
      (t.id ∈ (detectCycles (validateAndSanitizeTasks ts)).cycleNodes ∧
        t.status = TaskStatus.error) ∨
      (t.id ∉ (detectCycles (validateAndSanitizeTasks ts)).cycleNodes ∧
        t.status = TaskStatus.ready) := by
  intro t ht
  obtain ⟨t0, ht0, hcase⟩ := mem_detectCycles_tasks ht
  obtain ⟨t1, _, _, hst, _⟩ := mem_validateAndSanitizeTasks ht0
  rcases hcase with ⟨hc, heq⟩ | ⟨hc, heq⟩
  · left
    rw [heq]
    exact ⟨hc, rfl⟩
  · right
    rw [heq]
    exact ⟨hc, hst⟩

theorem mem_calculateTaskStatuses {l : List ValidatedTask} {c : List String}
    {u : ValidatedTask} (hu : u ∈ calculateTaskStatuses l c) : ∃ v ∈ l, u.id = v.id := by
  simp only [calculateTaskStatuses] at hu
  obtain ⟨v, hv, heq⟩ := List.mem_map.mp hu
  refine ⟨v, hv, ?_⟩
  by_cases hs : v.status = TaskStatus.error
  · rw [if_pos hs] at heq
    rw [← heq]
  · rw [if_neg hs] at heq
    rw [← heq]

/-! ## The complete-task route never touches another error-status task -/

theorem foldl_updateFirstBy_mem {us : List ValidatedTask} :
    ∀ {store : List StoredTask} {t : StoredTask}, t ∈ store →
      (∀ u ∈ us, ¬ t.taskId = u.id) →
      t ∈ us.foldl (fun sacc u => updateFirstBy sacc (fun x => x.taskId = u.id)
        (fun x => { x with status := u.status })) store := by
  induction us with
  | nil => intro store t ht _; exact ht
  | cons u us ih =>
    intro store t ht hne
    rw [List.foldl_cons]
    refine ih ?_ (fun x hx => hne x (List.mem_cons.mpr (Or.inr hx)))
    exact updateFirstBy_mem_of_neg ht
      (decide_eq_false (hne u (List.mem_cons.mpr (Or.inl rfl))))

theorem completeTask_preserves_other_error {store : List StoredTask} {tid : String}
    {t : StoredTask} (hnodup : (store.map (fun x => x.taskId)).Nodup)
    (ht : t ∈ store) (hstatus : t.status = TaskStatus.error) (hne : t.taskId ≠ tid) :
    t ∈ (completeTask store tid).2 := by
  rw [completeTask]
  cases hfind : store.find? (fun x => x.taskId = tid) with
  | none => exact ht
  | some task =>
    simp only []
    have ht1 : t ∈ updateFirstBy store (fun x => x.taskId = tid)
        (fun x => { x with status := TaskStatus.completed }) :=
      updateFirstBy_mem_of_neg ht (decide_eq_false hne)
    have hnodup1 : ((updateFirstBy store (fun x => x.taskId = tid)
        (fun x => { x with status := TaskStatus.completed })).map
          (fun x => x.taskId)).Nodup := by
      have heqmap := updateFirstBy_map_eq store (fun x : StoredTask => decide (x.taskId = tid))
        (fun x => { x with status := TaskStatus.completed }) (fun x => x.taskId) (fun x => rfl)
      rw [heqmap]
      exact hnodup
    apply foldl_updateFirstBy_mem ht1
    intro u hu hid
    obtain ⟨v, hv, huid⟩ := mem_calculateTaskStatuses hu
    obtain ⟨s0, hs0, heqv⟩ := List.mem_map.mp hv
    have hs0' := List.mem_filter.mp hs0
    have hs0'' := List.mem_filter.mp hs0'.1
    have hs0store : s0 ∈ updateFirstBy store (fun x => x.taskId = tid)
        (fun x => { x with status := TaskStatus.completed }) := hs0''.1
    have hs0status : ¬ s0.status = TaskStatus.error := by
      have := of_decide_eq_true hs0'.2
      exact this.2
    have hids : t.taskId = s0.taskId := by
      rw [hid, huid, ← heqv]
      rfl
    have : t = s0 := by
      have hinj := List.inj_on_of_nodup_map hnodup1
      exact hinj ht1 hs0store hids
    rw [this] at hstatus
    exact hs0status hstatus

/-! ## Failure isolation in the job queue -/

theorem failedMessage_ne_empty (msg : String) : failedMessage msg ≠ "" := by
  rw [failedMessage]
  split
  · decide
  · rename_i h; exact h

theorem find?_update_transcript_other {l : List Transcript} {j j' : String} (hne : j' ≠ j)
    (f : Transcript → Transcript) (hf : ∀ x, (f x).jobId = x.jobId) :
    (updateFirstBy l (fun t => t.jobId = j) f).find? (fun t => t.jobId = j') =
      l.find? (fun t => t.jobId = j') :=
  find?_updateFirstBy_of_neg
    (fun x => by simp [hf])
    (fun x hx => by
      have hxj := of_decide_eq_true hx
      exact decide_eq_false (fun hc => hne (by rw [← hc, hxj])))

theorem find?_update_transcript_self {l : List Transcript} {j : String}
    (f : Transcript → Transcript) (hf : ∀ x, (f x).jobId = x.jobId) :
    (updateFirstBy l (fun t => t.jobId = j) f).find? (fun t => t.jobId = j) =
      (l.find? (fun t => t.jobId = j)).map f :=
  find?_updateFirstBy_self
    (fun x hx => by rw [decide_eq_true_eq] at hx ⊢; rw [hf, hx])

theorem find?_update_job_other {l : List Job} {j j' : String} (hne : j' ≠ j)
    (f : Job → Job) (hf : ∀ x, (f x).jobId = x.jobId) :
    (updateFirstBy l (fun t => t.jobId = j) f).find? (fun t => t.jobId = j') =
      l.find? (fun t => t.jobId = j') :=
  find?_updateFirstBy_of_neg
    (fun x => by simp [hf])
    (fun x hx => by
      have hxj := of_decide_eq_true hx
      exact decide_eq_false (fun hc => hne (by rw [← hc, hxj])))

theorem find?_update_job_self {l : List Job} {j : String}
    (f : Job → Job) (hf : ∀ x, (f x).jobId = x.jobId) :
    (updateFirstBy l (fun t => t.jobId = j) f).find? (fun t => t.jobId = j) =
      (l.find? (fun t => t.jobId = j)).map f :=
  find?_updateFirstBy_self
    (fun x hx => by rw [decide_eq_true_eq] at hx ⊢; rw [hf, hx])

/-- Processing one job never changes the stored transcript of another job. -/
theorem processJob_transcript_other {gen : String → Except String (List TaskOutput)}
    {s : SysState} {j j' : String} (hne : j' ≠ j) :
    (processJob gen s j).transcripts.find? (fun t => t.jobId = j') =
      s.transcripts.find? (fun t => t.jobId = j') := by
  simp only [processJob]
  split
  · refine (find?_update_transcript_other hne ?_ ?_).trans
      (find?_update_transcript_other hne ?_ ?_)
    · intro x; rfl
    · intro x; rfl
  · split
    · refine (find?_update_transcript_other hne ?_ ?_).trans
        (find?_update_transcript_other hne ?_ ?_)
      · intro x; rfl
      · intro x; rfl
    · refine (find?_update_transcript_other hne ?_ ?_).trans
        (find?_update_transcript_other hne ?_ ?_)
      · intro x; rfl
      · intro x; rfl

/-- Processing one job never changes the in-memory entry of another job. -/
theorem processJob_job_other {gen : String → Except String (List TaskOutput)}
    {s : SysState} {j j' : String} (hne : j' ≠ j) :
    (processJob gen s j).jobs.find? (fun x => x.jobId = j') =
      s.jobs.find? (fun x => x.jobId = j') := by
  simp only [processJob]
  split
  · refine (find?_update_job_other hne ?_ ?_).trans (find?_update_job_other hne ?_ ?_)
    · intro x; rfl
    · intro x; rfl
  · split
    · refine (find?_update_job_other hne ?_ ?_).trans (find?_update_job_other hne ?_ ?_)
      · intro x; rfl
      · intro x; rfl
    · refine (find?_update_job_other hne ?_ ?_).trans (find?_update_job_other hne ?_ ?_)
      · intro x; rfl
      · intro x; rfl

/-- A job whose generator call fails leaves its transcript `failed` with the
captured (nonempty after the `||` fallback) error message. -/
theorem processJob_transcript_fail {gen : String → Except String (List TaskOutput)}
    {s : SysState} {j : String} {tr : Transcript} {msg : String}
    (hfind : s.transcripts.find? (fun t => t.jobId = j) = some tr)
    (hgen : gen tr.content = Except.error msg) :
    (processJob gen s j).transcripts.find? (fun t => t.jobId = j) =
      some { tr with
             status := TranscriptStatus.failed
             errorMessage := some (failedMessage msg) } := by
  have h1 : (updateFirstBy s.transcripts (fun t => t.jobId = j)
      (fun t => { t with status := TranscriptStatus.processing })).find?
        (fun t => t.jobId = j) =
      some { tr with status := TranscriptStatus.processing } := by
    refine (find?_update_transcript_self ?_ ?_).trans ?_
    · intro x; rfl
    · rw [hfind]
      rfl
  simp only [processJob]
  split
  · rename_i heq
    rw [h1] at heq
    cases heq
  · rename_i transcript heq
    rw [h1] at heq
    injection heq with heq'
    subst heq'
    split
    · rename_i msg' hgen'
      have : (Except.error msg : Except String (List TaskOutput)) = Except.error msg' := by
        rw [← hgen, ← hgen']
      injection this with hmsg
      subst hmsg
      refine (find?_update_transcript_self ?_ ?_).trans ?_
      · intro x; rfl
      · rw [h1]
        rfl
    · rename_i tasks' hgen'
      rw [show ({ tr with status := TranscriptStatus.processing } : Transcript).content =
        tr.content from rfl, hgen] at hgen'
      cases hgen'

/-- After processing, the in-memory job entry is terminal
(`completed` or `failed`). -/
theorem processJob_job_terminal (gen : String → Except String (List TaskOutput))
    {s : SysState} {j : String} {jb : Job}
    (hfind : s.jobs.find? (fun x => x.jobId = j) = some jb) :
    ∃ jb', (processJob gen s j).jobs.find? (fun x => x.jobId = j) = some jb' ∧
      (jb'.status = JobStatus.completed ∨ jb'.status = JobStatus.failed) := by
  have h1 : (updateFirstBy s.jobs (fun x => x.jobId = j)
      (fun x => { x with status := JobStatus.processing })).find? (fun x => x.jobId = j) =
      some { jb with status := JobStatus.processing } := by
    refine (find?_update_job_self ?_ ?_).trans ?_
    · intro x; rfl
    · rw [hfind]
      rfl
  simp only [processJob]
  split
  · refine ⟨{ jb with status := JobStatus.failed }, ?_, Or.inr rfl⟩
    refine (find?_update_job_self ?_ ?_).trans ?_
    · intro x; rfl
    · rw [h1]
      rfl
  · split
    · refine ⟨{ jb with status := JobStatus.failed }, ?_, Or.inr rfl⟩
      refine (find?_update_job_self ?_ ?_).trans ?_
      · intro x; rfl
      · rw [h1]
        rfl
    · refine ⟨{ jb with status := JobStatus.completed }, ?_, Or.inl rfl⟩
      refine (find?_update_job_self ?_ ?_).trans ?_
      · intro x; rfl
      · rw [h1]
        rfl

theorem processJob_job_isSome {gen : String → Except String (List TaskOutput)}
    {s : SysState} {j j' : String}
    (hsome : (s.jobs.find? (fun x => x.jobId = j')).isSome) :
    ((processJob gen s j).jobs.find? (fun x => x.jobId = j')).isSome := by
  by_cases hne : j' = j
  · subst hne
    obtain ⟨jb, hjb⟩ := Option.isSome_iff_exists.mp hsome
    obtain ⟨jb', hjb', _⟩ := processJob_job_terminal gen hjb
    rw [hjb']
    rfl
  · rw [processJob_job_other hne]
    exact hsome

theorem drainList_transcript_other {gen : String → Except String (List TaskOutput)} :
    ∀ (js : List String) (s : SysState) (j' : String), j' ∉ js →
      (drainList gen js s).transcripts.find? (fun t => t.jobId = j') =
        s.transcripts.find? (fun t => t.jobId = j') := by
  intro js
  induction js with
  | nil => intro s j' _; rfl
  | cons j rest ih =>
    intro s j' hne
    have hj : j' ≠ j := fun hc => hne (by rw [hc]; exact List.mem_cons.mpr (Or.inl rfl))
    have hrest : j' ∉ rest := fun hc => hne (List.mem_cons.mpr (Or.inr hc))
    rw [drainList]
    split
    · exact ih s j' hrest
    · rw [ih _ j' hrest, processJob_transcript_other hj]

theorem drainList_job_other {gen : String → Except String (List TaskOutput)} :
    ∀ (js : List String) (s : SysState) (j' : String), j' ∉ js →
      (drainList gen js s).jobs.find? (fun x => x.jobId = j') =
        s.jobs.find? (fun x => x.jobId = j') := by
  intro js
  induction js with
  | nil => intro s j' _; rfl
  | cons j rest ih =>
    intro s j' hne
    have hj : j' ≠ j := fun hc => hne (by rw [hc]; exact List.mem_cons.mpr (Or.inl rfl))
    have hrest : j' ∉ rest := fun hc => hne (List.mem_cons.mpr (Or.inr hc))
    rw [drainList]
    split
    · exact ih s j' hrest
    · rw [ih _ j' hrest, processJob_job_other hj]

/-- Every job in the drained list whose id has a jobs-map entry ends in a
terminal status: one job's failure never prevents the rest of the queue from
being processed. -/
theorem drainList_processes {gen : String → Except String (List TaskOutput)} :
    ∀ (js : List String) (s : SysState), js.Nodup →
      (∀ j ∈ js, (s.jobs.find? (fun x => x.jobId = j)).isSome) →
      ∀ j ∈ js, ∃ jb', (drainList gen js s).jobs.find? (fun x => x.jobId = j) = some jb' ∧
        (jb'.status = JobStatus.completed ∨ jb'.status = JobStatus.failed) := by
  intro js
  induction js with
  | nil => intro s _ _ j hj; exact absurd hj (List.not_mem_nil j)
  | cons j0 rest ih =>
    intro s hnodup hsome j hj
    have hj0some := hsome j0 (List.mem_cons.mpr (Or.inl rfl))
    obtain ⟨jb0, hjb0⟩ := Option.isSome_iff_exists.mp hj0some
    rw [drainList, hjb0]
    have hj0rest : j0 ∉ rest := (List.nodup_cons.mp hnodup).1
    rcases List.mem_cons.mp hj with rfl | hjr
    · obtain ⟨jb', hjb', hterm⟩ := processJob_job_terminal gen hjb0
      refine ⟨jb', ?_, hterm⟩
      rw [drainList_job_other rest _ j hj0rest]
      exact hjb'
    · refine ih (processJob gen s j0) (List.nodup_cons.mp hnodup).2 ?_ j hjr
      intro x hx
      exact processJob_job_isSome (hsome x (List.mem_cons.mpr (Or.inr hx)))

/-! ## Concrete example batches used by the claims -/

def mkTask (i : String) (deps : List String) : TaskOutput :=
  { id := i, description := "t", priority := Priority.medium, dependencies := deps }

/-- In the batch D(deps:[A]), A(deps:[B]), B(deps:[A]) — with A and B on a
2-cycle — no walk leads from {A, B} back to D, so D is on no cycle. -/
theorem no_walk_back_to_D : ∀ (p : List String) (x : String), x = "A" ∨ x = "B" →
    ¬ Walk (buildGraph (validateAndSanitizeTasks
      [mkTask "D" ["A"], mkTask "A" ["B"], mkTask "B" ["A"]])) x p "D" := by
  intro p
  induction p with
  | nil =>
    rintro x (rfl | rfl) hw
    · exact absurd hw (by decide)
    · exact absurd hw (by decide)
  | cons c p' ih =>
    rintro x hx hw
    obtain ⟨hedge, hw'⟩ := hw
    rcases hx with rfl | rfl
    · have hc : c ∈ ["B"] := hedge
      rw [List.mem_singleton] at hc
      subst hc
      exact ih "B" (Or.inr rfl) hw'
    · have hc : c ∈ ["A"] := hedge
      rw [List.mem_singleton] at hc
      subst hc
      exact ih "A" (Or.inl rfl) hw'

/-- In the acyclic batch A(deps:[]), B(deps:[A]) there is no directed
cycle. -/
theorem acyclic_example :
    ¬ HasCycle (buildGraph (validateAndSanitizeTasks
      [mkTask "A" [], mkTask "B" ["A"]])) := by
  rintro ⟨u, p, hp, hw⟩
  cases p with
  | nil => exact hp rfl
  | cons c p' =>
    obtain ⟨hedge, hw'⟩ := hw
    have hu : u ∈ graphKeys (buildGraph (validateAndSanitizeTasks
        [mkTask "A" [], mkTask "B" ["A"]])) :=
      mem_keys_of_graphGet_ne (List.ne_nil_of_mem hedge)
    have hu' : u = "A" ∨ u = "B" := by
      have : u ∈ ["A", "B"] := hu
      rcases List.mem_cons.mp this with h1 | h1
      · exact Or.inl h1
      · exact Or.inr (List.mem_singleton.mp h1)
    rcases hu' with rfl | rfl
    · exact absurd (show c ∈ ([] : List String) from hedge) (List.not_mem_nil c)
    · have hc : c ∈ ["A"] := hedge
      rw [List.mem_singleton] at hc
      subst hc
      cases p' with
      | nil => exact absurd hw' (by decide)
      | cons d p'' =>
        exact absurd (show d ∈ ([] : List String) from hw'.1) (List.not_mem_nil d)

/-! ## Claim C1 -/

/-- Claim C1 is false on the code: for the batch A(deps:[]), B(deps:[A]),
C(deps:[X]) the persisted statuses are A=ready, B=ready, C=ready — the
non-error task B, whose sanitized dependency list is nonempty, is not
stored as `blocked` (no readiness recomputation with the empty
completed-set is applied before persisting). -/
theorem C1_counterexample :
    ((detectCycles (validateAndSanitizeTasks
        [mkTask "A" [], mkTask "B" ["A"], mkTask "C" ["X"]])).tasks.map
      (fun t => (t.id, t.dependencies, t.status)) =
      [("A", [], TaskStatus.ready), ("B", ["A"], TaskStatus.ready),
       ("C", [], TaskStatus.ready)]) ∧
    ¬ (∀ t ∈ (detectCycles (validateAndSanitizeTasks
        [mkTask "A" [], mkTask "B" ["A"], mkTask "C" ["X"]])).tasks,
        t.status ≠ TaskStatus.error →
          (t.dependencies ≠ [] → t.status = TaskStatus.blocked) ∧
          (t.dependencies = [] → t.status = TaskStatus.ready)) :=
  ⟨rfl, by decide⟩

/-- Claim C1 (amended): after a job is processed successfully the persisted
initial statuses are `error` for cycle members and `ready` for every other
task — even tasks with unmet sanitized dependencies are stored `ready`; in
the example batch A, B and C are all persisted `ready`. -/
theorem C1_theorem :
    (∀ ts : List TaskOutput, ∀ t ∈ (detectCycles (validateAndSanitizeTasks ts)).tasks,
      (t.id ∈ (detectCycles (validateAndSanitizeTasks ts)).cycleNodes ∧
        t.status = TaskStatus.error) ∨
      (t.id ∉ (detectCycles (validateAndSanitizeTasks ts)).cycleNodes ∧
        t.status = TaskStatus.ready)) ∧
    ((detectCycles (validateAndSanitizeTasks
        [mkTask "A" [], mkTask "B" ["A"], mkTask "C" ["X"]])).tasks.map
      (fun t => t.status) =
      [TaskStatus.ready, TaskStatus.ready, TaskStatus.ready]) :=
  ⟨pipeline_status, rfl⟩

/-- Witness for C1: the sanitized task A of the one-task batch is persisted
with status `ready`. -/
theorem C1_witness :
    ((⟨⟨"A", "t", Priority.medium, []⟩, TaskStatus.ready, none, none⟩ : ValidatedTask).id ∈
      (detectCycles (validateAndSanitizeTasks [mkTask "A" []])).cycleNodes ∧
      (⟨⟨"A", "t", Priority.medium, []⟩, TaskStatus.ready, none,
        none⟩ : ValidatedTask).status = TaskStatus.error) ∨
    ((⟨⟨"A", "t", Priority.medium, []⟩, TaskStatus.ready, none, none⟩ : ValidatedTask).id ∉
      (detectCycles (validateAndSanitizeTasks [mkTask "A" []])).cycleNodes ∧
      (⟨⟨"A", "t", Priority.medium, []⟩, TaskStatus.ready, none,
        none⟩ : ValidatedTask).status = TaskStatus.ready) :=
  C1_theorem.1 [mkTask "A" []] _ (by decide)

/-! ## Claim C2 -/

/-- Claim C2 is false on the code: the complete route never checks the
current status, so completing a task whose status is `error` overwrites it
with `completed` — `error` is not terminal under the complete-task
operation applied to the task itself. -/
theorem C2_counterexample :
    ((completeTask [⟨"t1", "d", Priority.high, [], TaskStatus.error,
        some cycleErrorMessage, "tr"⟩] "t1").2.map (fun t => t.status) =
      [TaskStatus.completed]) ∧
    TaskStatus.completed ≠ TaskStatus.error :=
  ⟨rfl, by decide⟩

/-- Claim C2 (amended): completing a task never changes any OTHER
error-status task of the same store (the readiness recomputation excludes
`error` tasks); only the completed task itself is overwritten, even when
its status was `error`. -/
theorem C2_theorem : ∀ (store : List StoredTask) (tid : String) (t : StoredTask),
    (store.map (fun x => x.taskId)).Nodup → t ∈ store →
    t.status = TaskStatus.error → t.taskId ≠ tid →
    t ∈ (completeTask store tid).2 :=
  fun _ _ _ h1 h2 h3 h4 => completeTask_preserves_other_error h1 h2 h3 h4

/-- Witness for C2: completing t2 leaves the error-status record t1
untouched in the store. -/
theorem C2_witness :
    (⟨"t1", "d", Priority.high, [], TaskStatus.error, none, "tr"⟩ : StoredTask) ∈
      (completeTask
        [⟨"t1", "d", Priority.high, [], TaskStatus.error, none, "tr"⟩,
         ⟨"t2", "d", Priority.high, [], TaskStatus.ready, none, "tr"⟩] "t2").2 :=
  C2_theorem _ "t2" _ (by decide) (by decide) rfl (by decide)

/-! ## Claim C3 -/

/-- Claim C3 is false on the code: in the batch D(deps:[A]), A(deps:[B]),
B(deps:[A]) the task D lies on no directed cycle (no walk returns to D)
while A — one of its dependencies — does (A→B→A), yet `detectCycles` marks
D with status `error`, not `blocked`. -/
theorem C3_counterexample :
    (¬ NW (buildGraph (validateAndSanitizeTasks
        [mkTask "D" ["A"], mkTask "A" ["B"], mkTask "B" ["A"]])) "D" "D") ∧
    Walk (buildGraph (validateAndSanitizeTasks
        [mkTask "D" ["A"], mkTask "A" ["B"], mkTask "B" ["A"]])) "A" ["B", "A"] "A" ∧
    ((detectCycles (validateAndSanitizeTasks
        [mkTask "D" ["A"], mkTask "A" ["B"], mkTask "B" ["A"]])).tasks.map
      (fun t => (t.id, t.dependencies, t.status)) =
      [("D", ["A"], TaskStatus.error), ("A", ["B"], TaskStatus.error),
       ("B", ["A"], TaskStatus.error)]) := by
  refine ⟨?_, ⟨by decide, by decide, rfl⟩, rfl⟩
  rintro ⟨p, hp, hw⟩
  cases p with
  | nil => exact hp rfl
  | cons c p' =>
    obtain ⟨hedge, hw'⟩ := hw
    have hc : c ∈ ["A"] := hedge
    rw [List.mem_singleton] at hc
    subst hc
    exact no_walk_back_to_D p' "A" (Or.inl rfl) hw'

/-- Claim C3 (amended): a task that is not itself on any directed cycle but
whose dependencies include a cycle member IS marked `error` by
`detectCycles` (cycle membership propagates up the DFS path, and stale
recursion-stack entries catch dependents visited later): in every insertion
order of the batch {D(deps:[A]), A(deps:[B]), B(deps:[A])} the task D ends
with status `error`, never `blocked`. -/
theorem C3_theorem :
    ∀ ts ∈ [[mkTask "D" ["A"], mkTask "A" ["B"], mkTask "B" ["A"]],
            [mkTask "A" ["B"], mkTask "D" ["A"], mkTask "B" ["A"]],
            [mkTask "A" ["B"], mkTask "B" ["A"], mkTask "D" ["A"]],
            [mkTask "D" ["A"], mkTask "B" ["A"], mkTask "A" ["B"]],
            [mkTask "B" ["A"], mkTask "D" ["A"], mkTask "A" ["B"]],
            [mkTask "B" ["A"], mkTask "A" ["B"], mkTask "D" ["A"]]],
      ∀ t ∈ (detectCycles (validateAndSanitizeTasks ts)).tasks,
        t.id = "D" → t.status = TaskStatus.error := by
  decide

/-- Witness for C3: in the first batch order, the persisted record for D
has status `error`. -/
theorem C3_witness :
    (⟨⟨"D", "t", Priority.medium, ["A"]⟩, TaskStatus.error, some cycleErrorMessage,
      none⟩ : ValidatedTask).status = TaskStatus.error :=
  C3_theorem [mkTask "D" ["A"], mkTask "A" ["B"], mkTask "B" ["A"]] (by decide) _
    (by decide) rfl

/-! ## Claim C4 -/

/-- Claim C4 is false on the code: on the acyclic batch A(deps:[]),
B(deps:[A]) the sort returns [B, A]; for the edge B→A the dependency A does
NOT precede the dependent B — `result.reverse()` yields the
dependent-first order. -/
theorem C4_counterexample :
    topologicalSort (validateAndSanitizeTasks [mkTask "A" [], mkTask "B" ["A"]]) =
      some ["B", "A"] ∧
    Edge (buildGraph (validateAndSanitizeTasks [mkTask "A" [], mkTask "B" ["A"]]))
      "B" "A" ∧
    beforeInB ["B", "A"] "A" "B" = false :=
  ⟨rfl, by decide, rfl⟩

/-- Claim C4 (amended): on an acyclic batch `topologicalSort` returns an
order in which, for every edge u→v (u depends on v), the dependent u
appears strictly BEFORE its dependency v; on a batch whose graph contains
any directed cycle it returns failure (`none`). -/
theorem C4_theorem : ∀ ts : List TaskOutput,
    (¬ HasCycle (buildGraph (validateAndSanitizeTasks ts)) →
      ∃ L, topologicalSort (validateAndSanitizeTasks ts) = some L ∧
        ∀ u v, v ∈ graphGet (buildGraph (validateAndSanitizeTasks ts)) u →
          beforeInB L u v = true) ∧
    (HasCycle (buildGraph (validateAndSanitizeTasks ts)) →
      topologicalSort (validateAndSanitizeTasks ts) = none) :=
  fun _ => ⟨fun h => topologicalSort_acyclic _ h, fun h => topologicalSort_none_of_cycle _ h⟩

/-- Witness for C4: the acyclic two-task batch sorts successfully with the
dependent-first property, and the cyclic batch A↔B returns `none`. -/
theorem C4_witness :
    (∃ L, topologicalSort (validateAndSanitizeTasks [mkTask "A" [], mkTask "B" ["A"]]) =
        some L ∧
      ∀ u v, v ∈ graphGet (buildGraph (validateAndSanitizeTasks
        [mkTask "A" [], mkTask "B" ["A"]])) u → beforeInB L u v = true) ∧
    topologicalSort (validateAndSanitizeTasks [mkTask "A" ["B"], mkTask "B" ["A"]]) =
      none :=
  ⟨( C4_theorem [mkTask "A" [], mkTask "B" ["A"]]).1 acyclic_example,
   ( C4_theorem [mkTask "A" ["B"], mkTask "B" ["A"]]).2
     ⟨"A", ["B", "A"], by decide, by decide, by decide, rfl⟩⟩

/-! ## Claim C5 -/

/-- Claim C5: `detectCycles` reports `hasCycles = true` exactly when the
sanitized dependency graph contains a directed cycle; on the three-task
cycle A→B→C→A it marks exactly {A, B, C} with status `error`; and on every
acyclic batch no task is given status `error`. -/
theorem C5_theorem :
    (∀ ts : List TaskOutput,
      (detectCycles (validateAndSanitizeTasks ts)).hasCycles = true ↔
        HasCycle (buildGraph (validateAndSanitizeTasks ts))) ∧
    ((detectCycles (validateAndSanitizeTasks
        [mkTask "A" ["B"], mkTask "B" ["C"], mkTask "C" ["A"]])).hasCycles = true ∧
      (detectCycles (validateAndSanitizeTasks
        [mkTask "A" ["B"], mkTask "B" ["C"], mkTask "C" ["A"]])).tasks.map
        (fun t => (t.id, t.status)) =
        [("A", TaskStatus.error), ("B", TaskStatus.error), ("C", TaskStatus.error)] ∧
      (∀ x, x ∈ (detectCycles (validateAndSanitizeTasks
        [mkTask "A" ["B"], mkTask "B" ["C"], mkTask "C" ["A"]])).cycleNodes ↔
        (x = "A" ∨ x = "B" ∨ x = "C"))) ∧
    (∀ ts : List TaskOutput,
      ¬ HasCycle (buildGraph (validateAndSanitizeTasks ts)) →
      ∀ t ∈ (detectCycles (validateAndSanitizeTasks ts)).tasks,
        t.status ≠ TaskStatus.error) := by
  refine ⟨fun ts => hasCycles_iff (validateAndSanitizeTasks ts), ⟨rfl, rfl, ?_⟩, ?_⟩
  · intro x
    rw [show (detectCycles (validateAndSanitizeTasks
      [mkTask "A" ["B"], mkTask "B" ["C"], mkTask "C" ["A"]])).cycleNodes =
      ["B", "A", "C"] from rfl]
    constructor
    · intro hx
      rcases List.mem_cons.mp hx with rfl | hx'
      · exact Or.inr (Or.inl rfl)
      · rcases List.mem_cons.mp hx' with rfl | hx''
        · exact Or.inl rfl
        · exact Or.inr (Or.inr (List.mem_singleton.mp hx''))
    · rintro (rfl | rfl | rfl) <;> decide
  · intro ts hnc t ht
    rcases pipeline_status ts t ht with ⟨hc, _⟩ | ⟨_, hs⟩
    · exfalso
      obtain ⟨st, heq, hres⟩ := detectCycles_run_eq (validateAndSanitizeTasks ts)
      have hempty : st.cyc = [] :=
        (detectCycles_cyc_empty_iff (validateAndSanitizeTasks ts) st heq).mpr hnc
      rw [hres] at hc
      rw [hempty] at hc
      exact List.not_mem_nil _ hc
    · rw [hs]
      decide

/-- Witness for C5: the iff applied at the concrete cyclic batch yields a
directed cycle in its sanitized graph. -/
theorem C5_witness :
    HasCycle (buildGraph (validateAndSanitizeTasks
      [mkTask "A" ["B"], mkTask "B" ["C"], mkTask "C" ["A"]])) :=
  ( C5_theorem.1 [mkTask "A" ["B"], mkTask "B" ["C"], mkTask "C" ["A"]]).mp rfl

/-! ## Claim C6 -/

/-- Claim C6: after sanitization every task's dependency list is a subset
of the ids present in the batch, and sanitization is total — it returns
one output task per input task (dropping non-member ids never fails the
job). -/
theorem C6_theorem :
    (∀ ts : List TaskOutput, ∀ t ∈ validateAndSanitizeTasks ts,
      ∀ d ∈ t.dependencies, d ∈ ts.map (fun x => x.id)) ∧
    (∀ ts : List TaskOutput,
      (validateAndSanitizeTasks ts).map (fun t => t.id) = ts.map (fun t => t.id)) := by
  refine ⟨?_, validateAndSanitizeTasks_ids⟩
  intro ts t ht
  obtain ⟨t0, _, _, _, hdeps⟩ := mem_validateAndSanitizeTasks ht
  exact hdeps

/-- Witness for C6: in the batch A, C(deps:[X, A]) the sanitized task C
keeps only the dependency A, which is an id of the batch. -/
theorem C6_witness :
    ∀ d ∈ (⟨⟨"C", "t", Priority.medium, ["A"]⟩, TaskStatus.ready, none,
      some ["X"]⟩ : ValidatedTask).dependencies,
      d ∈ [mkTask "A" [], mkTask "C" ["X", "A"]].map (fun x => x.id) :=
  C6_theorem.1 [mkTask "A" [], mkTask "C" ["X", "A"]] _ (by decide)

/-! ## Claim C7 -/

theorem find?_append_none {α : Type} {l1 l2 : List α} {p : α → Bool}
    (h : l1.find? p = none) : (l1 ++ l2).find? p = l2.find? p := by
  induction l1 with
  | nil => rfl
  | cons x xs ih =>
    cases hp : p x
    · rw [List.find?_cons_of_neg _ (by simp [hp])] at h
      rw [List.cons_append, List.find?_cons_of_neg _ (by simp [hp])]
      exact ih h
    · rw [List.find?_cons_of_pos _ hp] at h
      cases h

theorem submit_dup_of_found {s : SysState} (id : String) {c : String} {ex : Transcript}
    (hlen : ¬ (jsTrim c).length < 50)
    (hfound : checkDuplicate s.transcripts (jsTrim c) = some ex) :
    submitTranscript s id c =
      ({ httpStatus := 200, jobId := some ex.jobId, isDuplicate := true }, s) := by
  unfold submitTranscript
  rw [if_neg hlen, hfound]

theorem submit_new_of_none {s : SysState} (id : String) {c : String}
    (hlen : ¬ (jsTrim c).length < 50)
    (hnone : checkDuplicate s.transcripts (jsTrim c) = none) :
    submitTranscript s id c =
      ({ httpStatus := 202, jobId := some id, isDuplicate := false },
       { s with
         transcripts := s.transcripts ++
           [{ jobId := id, content := jsTrim c,
              contentHash := generateContentHash (jsTrim c),
              status := TranscriptStatus.pending, errorMessage := none, metadata := none }]
         jobs := s.jobs ++ [{ jobId := id, transcriptId := id, status := JobStatus.pending }]
         queue := s.queue ++ [id] }) := by
  unfold submitTranscript
  rw [if_neg hlen, hnone]

/-- Claim C7: when two submissions have content equal after trimming and
lower-casing (hence equal content hashes), the second resolves to the same
jobId as the first with `isDuplicate = true` and leaves the state
completely unchanged: no new transcript, no new job, no enqueue — hence no
generator call and no new task batch. -/
theorem C7_theorem : ∀ (s : SysState) (id1 id2 c1 c2 : String),
    toLowerStr (jsTrim c1) = toLowerStr (jsTrim c2) →
    ¬ (jsTrim c1).length < 50 →
    (submitTranscript (submitTranscript s id1 c1).2 id2 c2).1.isDuplicate = true ∧
    (submitTranscript (submitTranscript s id1 c1).2 id2 c2).1.jobId =
      (submitTranscript s id1 c1).1.jobId ∧
    (submitTranscript (submitTranscript s id1 c1).2 id2 c2).2 =
      (submitTranscript s id1 c1).2 := by
  intro s id1 id2 c1 c2 hnorm hlen1
  have hhash : generateContentHash (jsTrim c2) = generateContentHash (jsTrim c1) := by
    rw [generateContentHash, generateContentHash, jsTrim_idem, jsTrim_idem]
    exact hnorm.symm
  have hlen2 : ¬ (jsTrim c2).length < 50 := by
    have h1 : (jsTrim c2).length = (jsTrim c1).length := by
      rw [← toLowerStr_length (jsTrim c2), ← toLowerStr_length (jsTrim c1), hnorm]
    rw [h1]
    exact hlen1
  cases hdup : checkDuplicate s.transcripts (jsTrim c1) with
  | some ex =>
    have e1 := submit_dup_of_found id1 hlen1 hdup
    have htr : (submitTranscript s id1 c1).2.transcripts = s.transcripts := by rw [e1]
    have hfound2 : checkDuplicate (submitTranscript s id1 c1).2.transcripts (jsTrim c2) =
        some ex := by
      rw [htr]
      unfold checkDuplicate at hdup ⊢
      rw [hhash]
      exact hdup
    have e2 := submit_dup_of_found id2 hlen2 hfound2
    rw [e2, e1]
    exact ⟨rfl, rfl, rfl⟩
  | none =>
    have e1 := submit_new_of_none id1 hlen1 hdup
    have htr : (submitTranscript s id1 c1).2.transcripts = s.transcripts ++
        [{ jobId := id1, content := jsTrim c1,
           contentHash := generateContentHash (jsTrim c1),
           status := TranscriptStatus.pending, errorMessage := none, metadata := none }] := by
      rw [e1]
    have hfound2 : checkDuplicate (submitTranscript s id1 c1).2.transcripts (jsTrim c2) =
        some { jobId := id1, content := jsTrim c1,
               contentHash := generateContentHash (jsTrim c1),
               status := TranscriptStatus.pending, errorMessage := none, metadata := none } := by
      rw [htr]
      unfold checkDuplicate at hdup ⊢
      rw [hhash]
      rw [find?_append_none hdup]
      exact List.find?_cons_of_pos _ (decide_eq_true rfl)
    have e2 := submit_dup_of_found id2 hlen2 hfound2
    rw [e2, e1]
    exact ⟨rfl, rfl, rfl⟩

/-- Witness for C7: submitting the same 50-character content twice (the
second time with a trailing blank) yields a duplicate that changes
nothing. -/
theorem C7_witness :
    (submitTranscript (submitTranscript ⟨[], [], [], []⟩ "job1"
        "aaaaaaaaaaaaaaaaaaaaaaaaaaaaaaaaaaaaaaaaaaaaaaaaaa").2 "job2"
        "aaaaaaaaaaaaaaaaaaaaaaaaaaaaaaaaaaaaaaaaaaaaaaaaaa ").1.isDuplicate = true ∧
    (submitTranscript (submitTranscript ⟨[], [], [], []⟩ "job1"
        "aaaaaaaaaaaaaaaaaaaaaaaaaaaaaaaaaaaaaaaaaaaaaaaaaa").2 "job2"
        "aaaaaaaaaaaaaaaaaaaaaaaaaaaaaaaaaaaaaaaaaaaaaaaaaa ").1.jobId =
      (submitTranscript ⟨[], [], [], []⟩ "job1"
        "aaaaaaaaaaaaaaaaaaaaaaaaaaaaaaaaaaaaaaaaaaaaaaaaaa").1.jobId ∧
    (submitTranscript (submitTranscript ⟨[], [], [], []⟩ "job1"
        "aaaaaaaaaaaaaaaaaaaaaaaaaaaaaaaaaaaaaaaaaaaaaaaaaa").2 "job2"
        "aaaaaaaaaaaaaaaaaaaaaaaaaaaaaaaaaaaaaaaaaaaaaaaaaa ").2 =
      (submitTranscript ⟨[], [], [], []⟩ "job1"
        "aaaaaaaaaaaaaaaaaaaaaaaaaaaaaaaaaaaaaaaaaaaaaaaaaa").2 :=
  C7_theorem ⟨[], [], [], []⟩ "job1" "job2"
    "aaaaaaaaaaaaaaaaaaaaaaaaaaaaaaaaaaaaaaaaaaaaaaaaaa"
    "aaaaaaaaaaaaaaaaaaaaaaaaaaaaaaaaaaaaaaaaaaaaaaaaaa " (by decide) (by decide)

/-! ## Claim C8 -/

/-- A one-job example system state used by the C8 witness. -/
def exSysState : SysState where
  transcripts := [⟨"j1", "c", "h", TranscriptStatus.pending, none, none⟩]
  tasks := []
  jobs := [⟨"j1", "j1", JobStatus.pending⟩]
  queue := ["j1"]

theorem drainList_first_fail {gen : String → Except String (List TaskOutput)}
    {j1 : String} {rest : List String} {s : SysState} {tr : Transcript} {msg : String}
    (hnotin : j1 ∉ rest)
    (hjb : (s.jobs.find? (fun x => x.jobId = j1)).isSome)
    (htr : s.transcripts.find? (fun t => t.jobId = j1) = some tr)
    (hgen : gen tr.content = Except.error msg) :
    (drainList gen (j1 :: rest) s).transcripts.find? (fun t => t.jobId = j1) =
      some { tr with
             status := TranscriptStatus.failed
             errorMessage := some (failedMessage msg) } := by
  rw [drainList]
  obtain ⟨jb, hjbeq⟩ := Option.isSome_iff_exists.mp hjb
  rw [hjbeq]
  rw [drainList_transcript_other rest _ j1 hnotin]
  exact processJob_transcript_fail htr hgen

/-- Claim C8: when the generator call fails for the first queued job, that
job's transcript is marked `failed` with the captured, nonempty error
message (the error is absorbed by the catch — `processQueue` is a total
function on states, nothing propagates to the submit caller), and the
queue keeps draining: every queued job with a jobs-map entry ends in a
terminal (`completed` or `failed`) status. -/
theorem C8_theorem : ∀ (gen : String → Except String (List TaskOutput)) (s : SysState)
    (j1 : String) (rest : List String) (tr : Transcript) (msg : String),
    s.queue = j1 :: rest → (j1 :: rest).Nodup →
    (∀ j ∈ s.queue, (s.jobs.find? (fun x => x.jobId = j)).isSome) →
    s.transcripts.find? (fun t => t.jobId = j1) = some tr →
    gen tr.content = Except.error msg →
    ((processQueue gen s).transcripts.find? (fun t => t.jobId = j1) =
      some { tr with
             status := TranscriptStatus.failed
             errorMessage := some (failedMessage msg) } ∧
      failedMessage msg ≠ "") ∧
    (∀ j ∈ s.queue, ∃ jb',
      (processQueue gen s).jobs.find? (fun x => x.jobId = j) = some jb' ∧
      (jb'.status = JobStatus.completed ∨ jb'.status = JobStatus.failed)) := by
  intro gen s j1 rest tr msg hq hnodup hsome htr hgen
  constructor
  · refine ⟨?_, failedMessage_ne_empty msg⟩
    show (drainList gen s.queue { s with queue := [] }).transcripts.find?
      (fun t => t.jobId = j1) = _
    rw [hq]
    exact drainList_first_fail (List.nodup_cons.mp hnodup).1
      (hsome j1 (by rw [hq]; exact List.mem_cons.mpr (Or.inl rfl))) htr hgen
  · intro j hj
    show ∃ jb', (drainList gen s.queue { s with queue := [] }).jobs.find?
      (fun x => x.jobId = j) = some jb' ∧ _
    rw [hq]
    rw [hq] at hj
    exact drainList_processes (j1 :: rest) { s with queue := [] } hnodup
      (fun x hx => hsome x (by rw [hq]; exact hx)) j hj

/-- Witness for C8: a one-job queue whose generator always throws leaves
the transcript `failed` with message "boom" and the job `failed`. -/
theorem C8_witness :
    ((processQueue (fun _ => Except.error "boom") exSysState).transcripts.find?
        (fun t => t.jobId = "j1") =
      some ⟨"j1", "c", "h", TranscriptStatus.failed, some (failedMessage "boom"), none⟩ ∧
      failedMessage "boom" ≠ "") ∧
    (∀ j ∈ exSysState.queue, ∃ jb',
      (processQueue (fun _ => Except.error "boom") exSysState).jobs.find?
        (fun x => x.jobId = j) = some jb' ∧
      (jb'.status = JobStatus.completed ∨ jb'.status = JobStatus.failed)) :=
  C8_theorem (fun _ => Except.error "boom") exSysState "j1" []
    ⟨"j1", "c", "h", TranscriptStatus.pending, none, none⟩ "boom" rfl (by decide)
    (by decide) rfl rfl

/-! ## Claim C9 -/

/-- Claim C9: in the run-to-completion event-loop model of `jobQueue.ts`,
every state reachable from the initial scheduler state has at most one job
inside `processJob` at a time, jobs begin processing in enqueue (FIFO)
order with nothing lost (`startedLog ++ queue = enqueueLog`), and the
worker is never idle while the queue is nonempty — an enqueue that happens
during the drain is picked up before the worker goes idle. -/
theorem C9_theorem : ∀ s : QueueState,
    Relation.ReflTransGen QStep initQueueState s →
    s.running.length ≤ 1 ∧ (s.startedLog ++ s.queue = s.enqueueLog) ∧
    (s.isProcessing = false → s.queue = []) :=
  fun _ h => ⟨(QInv_reachable h).mutex, (QInv_reachable h).fifo,
    (QInv_reachable h).idleEmpty⟩

/-- The scheduler state reached by: enqueue "a" (idle, so the drain starts),
enqueue "b" while busy, then "a" finishes and "b" starts. -/
def qexample : QueueState where
  queue := []
  jobKeys := ["a", "b"]
  isProcessing := true
  running := ["b"]
  startedLog := ["a", "b"]
  enqueueLog := ["a", "b"]

theorem C9_witness :
    qexample.running.length ≤ 1 ∧
    (qexample.startedLog ++ qexample.queue = qexample.enqueueLog) ∧
    (qexample.isProcessing = false → qexample.queue = []) :=
  C9_theorem qexample
    (Relation.ReflTransGen.tail
      (Relation.ReflTransGen.tail
        (Relation.ReflTransGen.single
          (QStep.enqueue_idle initQueueState "a" "a" [] rfl (by decide)))
        (QStep.enqueue_busy _ "b" rfl))
      (QStep.finish_next _ "a" "b" [] rfl (by decide)))

/-! ## Claim C10 -/

/-- Claim C10: polling a known job returns an empty task list whenever the
owning transcript's status is not `completed` (`pending`, `processing` or
`failed`), and returns the transcript's stored tasks exactly when the
status is `completed`. -/
theorem C10_theorem : ∀ (s : SysState) (jobId : String) (r : PollResponse),
    getJob s jobId = some r →
    (r.status ≠ TranscriptStatus.completed → r.tasks = []) ∧
    (∀ tr, s.transcripts.find? (fun t => t.jobId = jobId) = some tr →
      tr.status = TranscriptStatus.completed →
      r.tasks = s.tasks.filter (fun t => t.transcriptId = tr.jobId)) := by
  intro s jobId r hr
  unfold getJob at hr
  split at hr
  · cases hr
  · rename_i transcript heq
    injection hr with hr'
    subst hr'
    constructor
    · intro hne
      show (if transcript.status = TranscriptStatus.completed then _ else []) = []
      rw [if_neg (by exact hne)]
    · intro tr htr hcomp
      rw [heq] at htr
      injection htr with htr'
      subst htr'
      show (if transcript.status = TranscriptStatus.completed then
        s.tasks.filter (fun t => t.transcriptId = transcript.jobId) else []) = _
      rw [if_pos hcomp]

/-- Witness for C10: polling a `processing` transcript returns no tasks
even though a task row for it is already stored. -/
theorem C10_witness :
    ((getJob ⟨[⟨"j1", "c", "h", TranscriptStatus.processing, none, none⟩],
        [⟨"t1", "d", Priority.low, [], TaskStatus.ready, none, "j1"⟩],
        [], []⟩ "j1").getD
      ⟨"", TranscriptStatus.pending, [], none, none⟩).tasks = [] :=
  ( C10_theorem ⟨[⟨"j1", "c", "h", TranscriptStatus.processing, none, none⟩],
      [⟨"t1", "d", Priority.low, [], TaskStatus.ready, none, "j1"⟩], [], []⟩ "j1"
    ⟨"j1", TranscriptStatus.processing, [], none, none⟩ rfl).1 (by decide)

end MeetingInsights
